import Mathlib

/-!
# Shallow embedding of the `enfusion_pak` PAK-archive library

This file embeds the core of `crates/enfusion_pak` in Lean 4 and proves
properties of the embedded code.

* `crates/enfusion_pak/src/parser.rs` — the resumable chunk parser
  (`PakParser`, `parse_impl`, `next_state`, the chunk decoders and the
  recursive directory-entry decoder), together with the one-shot driver
  `PakFile::parse`.
* `crates/enfusion_pak/src/pak_vfs.rs` — the synchronous VFS adapter
  (`PakVfs::new`, `entry_at`, `open_file`, the mutating operations).
* `crates/enfusion_pak/src/wrappers/async_reader.rs` — the caching async
  wrapper (`Prime::prime_file`, `AsyncPrime::prime_file` with its
  size-bounded eviction).

Modelling conventions:

* Bytes are `Nat` values (< 256 on real inputs); multi-byte integers are
  assembled with explicit arithmetic, exactly as the little/big-endian
  readers of `winnow` do.
* Rust `String` values are kept as their UTF-8 byte lists (`List Nat`);
  `String::from_utf8` is modelled by an explicit UTF-8 validity checker.
* Fallible parsing returns `Except PErr`; `PErr` distinguishes the
  `winnow` error modes (`Incomplete`, `Backtrack`, `Cut`) from a Rust
  panic (`assert!`/`expect`/`todo!`/`panic!` and friends), so that
  "explicit error result" and "host-runtime panic" are distinguishable
  in theorem statements.
* `Vec` push/pop at the end of the vector is modelled by cons/head at the
  front of a `List` (an exact simulation of a stack).
-/

namespace EnfusionPak

/-- Error modes of the embedded parser.  `incomplete`, `backtrack` and `cut`
are the three `winnow::error::ErrMode` variants; `panicked` stands for a Rust
panic (raised by `assert!`, `expect`, `unwrap`, `todo!`, `unreachable!` or
`panic!` in the source). -/
inductive PErr where
  | incomplete
  | backtrack
  | cut
  | panicked
deriving DecidableEq, Repr

/-- A parser over a partial byte stream: it either succeeds with a value and
the remaining input, or fails with a `PErr`.  This models `winnow` parsers
running over `Partial<&[u8]>`. -/
def P (α : Type) : Type := List Nat → Except PErr (α × List Nat)

/-- Monadic sequencing of parsers (the `?` chaining in the Rust source). -/
def pbind (p : P α) (f : α → P β) : P β := fun i =>
  match p i with
  | .ok (a, r) => f a r
  | .error e => .error e

/-- A parser that consumes nothing and returns `a`. -/
def ppure (a : α) : P α := fun i => .ok (a, i)

/-- A parser that fails with error `e`. -/
def pfail (e : PErr) : P α := fun _ => .error e

/-- Sequencing a pure `Except` computation (e.g. a `TryFrom` conversion)
into a parser: an error short-circuits, a value selects the continuation. -/
def pmatch {γ α : Type} (x : Except PErr γ) (f : γ → P α) : P α := fun i =>
  match x with
  | .error e => .error e
  | .ok c => f c i

/-- `winnow::token::take(n)` over a partial stream: returns the first `n`
bytes or signals `Incomplete`. -/
def ptake (n : Nat) : P (List Nat) := fun i =>
  if n ≤ i.length then .ok (i.take n, i.drop n) else .error .incomplete

/-- `winnow::binary::u8` over a partial stream. -/
def pu8 : P Nat := fun i =>
  match i with
  | [] => .error .incomplete
  | b :: r => .ok (b, r)

/-- Big-endian `u32` from four bytes. -/
def be32 (bs : List Nat) : Nat :=
  match bs with
  | [a, b, c, d] => ((a * 256 + b) * 256 + c) * 256 + d
  | _ => 0

/-- Little-endian `u32` from four bytes. -/
def le32 (bs : List Nat) : Nat :=
  match bs with
  | [a, b, c, d] => ((d * 256 + c) * 256 + b) * 256 + a
  | _ => 0

/-- Little-endian `u16` from two bytes. -/
def le16 (bs : List Nat) : Nat :=
  match bs with
  | [a, b] => b * 256 + a
  | _ => 0

/-- `winnow::binary::be_u32`. -/
def pbe_u32 : P Nat := pbind (ptake 4) (fun bs => ppure (be32 bs))

/-- `winnow::binary::le_u32`. -/
def ple_u32 : P Nat := pbind (ptake 4) (fun bs => ppure (le32 bs))

/-- `winnow::binary::le_u16`. -/
def ple_u16 : P Nat := pbind (ptake 2) (fun bs => ppure (le16 bs))

/-- A literal byte-string tag over a partial stream (`winnow` `literal`):
if enough input is available the tag either matches (consuming it) or
backtracks; on a shorter input a matching prefix reports `Incomplete` and a
mismatching prefix backtracks. -/
def ptag (t : List Nat) : P (List Nat) := fun i =>
  if t.length ≤ i.length then
    if i.take t.length = t then .ok (t, i.drop t.length) else .error .backtrack
  else
    if i = t.take i.length then .error .incomplete else .error .backtrack

/-- `winnow::combinator::alt` over two branches: the second branch is tried
only when the first backtracks. -/
def palt2 (p q : P α) : P α := fun i =>
  match p i with
  | .error .backtrack => q i
  | r => r

/-- UTF-8 validity of a byte list, as checked by Rust's
`String::from_utf8` (RFC 3629: well-formed sequences only, no surrogates,
no overlongs, maximum U+10FFFF). -/
def utf8Valid : List Nat → Bool
  | [] => true
  | b :: rest =>
    if b < 0x80 then utf8Valid rest
    else if 0xC2 ≤ b ∧ b ≤ 0xDF then
      match rest with
      | c1 :: r => decide (0x80 ≤ c1 ∧ c1 ≤ 0xBF) && utf8Valid r
      | _ => false
    else if b = 0xE0 then
      match rest with
      | c1 :: c2 :: r =>
        decide (0xA0 ≤ c1 ∧ c1 ≤ 0xBF) && decide (0x80 ≤ c2 ∧ c2 ≤ 0xBF) && utf8Valid r
      | _ => false
    else if (0xE1 ≤ b ∧ b ≤ 0xEC) ∨ b = 0xEE ∨ b = 0xEF then
      match rest with
      | c1 :: c2 :: r =>
        decide (0x80 ≤ c1 ∧ c1 ≤ 0xBF) && decide (0x80 ≤ c2 ∧ c2 ≤ 0xBF) && utf8Valid r
      | _ => false
    else if b = 0xED then
      match rest with
      | c1 :: c2 :: r =>
        decide (0x80 ≤ c1 ∧ c1 ≤ 0x9F) && decide (0x80 ≤ c2 ∧ c2 ≤ 0xBF) && utf8Valid r
      | _ => false
    else if b = 0xF0 then
      match rest with
      | c1 :: c2 :: c3 :: r =>
        decide (0x90 ≤ c1 ∧ c1 ≤ 0xBF) && decide (0x80 ≤ c2 ∧ c2 ≤ 0xBF)
          && decide (0x80 ≤ c3 ∧ c3 ≤ 0xBF) && utf8Valid r
      | _ => false
    else if 0xF1 ≤ b ∧ b ≤ 0xF3 then
      match rest with
      | c1 :: c2 :: c3 :: r =>
        decide (0x80 ≤ c1 ∧ c1 ≤ 0xBF) && decide (0x80 ≤ c2 ∧ c2 ≤ 0xBF)
          && decide (0x80 ≤ c3 ∧ c3 ≤ 0xBF) && utf8Valid r
      | _ => false
    else if b = 0xF4 then
      match rest with
      | c1 :: c2 :: c3 :: r =>
        decide (0x80 ≤ c1 ∧ c1 ≤ 0x8F) && decide (0x80 ≤ c2 ∧ c2 ≤ 0xBF)
          && decide (0x80 ≤ c3 ∧ c3 ≤ 0xBF) && utf8Valid r
      | _ => false
    else false

/-- The `File` variant payload of `FileEntryMeta` (`parser.rs`): per-file
metadata fields.  All fields are machine integers on the wire; they are kept
as `Nat` here (the wire readers can only produce values below `2^32`). -/
structure FileMeta where
  offset : Nat
  compressed_len : Nat
  decompressed_len : Nat
  unk : Nat
  unk2 : Nat
  compressed : Nat
  compression_level : Nat
  timestamp : Nat
deriving DecidableEq, Repr

/-- A node of the archive's file tree (`FileEntry` + `FileEntryMeta` from
`parser.rs`, flattened: a `FileEntry` is a name together with either a
`Folder { children }` or a `File { .. }` payload).  Names keep their raw
UTF-8 bytes. -/
inductive FileEntry where
  | folder (name : List Nat) (children : List FileEntry)
  | file (name : List Nat) (meta : FileMeta)

/-- `FileEntry::name` - the entry's name (as UTF-8 bytes). -/
def FileEntry.name : FileEntry → List Nat
  | .folder n _ => n
  | .file n _ => n

/-- `FileEntryMeta::push_child`: append a child to a folder's children;
no-op on a file (mirrors the Rust method, whose comment notwithstanding the
code only pushes when the receiver is a `Folder`). -/
def FileEntry.push_child (e : FileEntry) (child : FileEntry) : FileEntry :=
  match e with
  | .folder n children => .folder n (children ++ [child])
  | .file n m => .file n m

/-- `PakType` - only `PAC1` is known. -/
inductive PakType where
  | PAC1
deriving DecidableEq, Repr

/-- A decoded chunk (`Chunk` in `parser.rs`).  Ranges are `(start, stop)`
pairs of byte offsets, exactly as the Rust code computes them from stream
checkpoints. -/
inductive Chunk where
  | form (file_size : Nat) (pak_file_type : PakType)
  | head (version : Nat) (unknown_data : Nat × Nat)
  | data (dataRange : Nat × Nat)
  | file (fs : FileEntry)
  | unknown (v : Nat)

/-- `Chunk::is_file` (generated by `Variantly` in the source). -/
def Chunk.is_file : Chunk → Bool
  | .file _ => true
  | _ => false

/-- `PakFile` - the parsed archive: its ordered chunk list. -/
structure PakFile where
  chunks : List Chunk

/-- `PakFile::file_chunk` - the first `File` chunk, if any. -/
def PakFile.file_chunk (p : PakFile) : Option Chunk :=
  p.chunks.find? Chunk.is_file

/-- `FileEntryKind` (the `Kinded` discriminant of `FileEntryMeta`). -/
inductive FileEntryKind where
  | folderKind
  | fileKind
deriving DecidableEq, Repr

/-- `TryFrom<u8> for FileEntryKind`: 0 is a folder, 1 is a file, anything
else panics (`panic!("unknown file entry kind")`). -/
def fileEntryKindOfByte (b : Nat) : Except PErr FileEntryKind :=
  if b = 0 then .ok .folderKind
  else if b = 1 then .ok .fileKind
  else .error .panicked

/-- The free function `parse_file_entry` in `parser.rs`: decodes one
directory entry.  Invalid UTF-8 names and out-of-range reserved/flag fields
panic (`expect` / `assert!` in the source).  Returns the entry and, for a
folder, its recorded `children_count`. -/
def parse_file_entry : P (FileEntry × Nat) :=
  pbind pu8 fun kind_byte =>
  pmatch (fileEntryKindOfByte kind_byte) fun entry_kind =>
  pbind pu8 fun name_len =>
  pbind (ptake name_len) fun name =>
  fun j =>
    if !utf8Valid name then .error .panicked
    else
      match entry_kind with
      | .folderKind =>
        (pbind ple_u32 fun children_count =>
         ppure (FileEntry.folder name [], children_count)) j
      | .fileKind =>
        (pbind ple_u32 fun offset =>
         pbind ple_u32 fun compressed_len =>
         pbind ple_u32 fun decompressed_len =>
         pbind ple_u32 fun unknown =>
         pbind ple_u16 fun unk2 =>
         pbind pu8 fun compressed =>
         pbind pu8 fun compression_level =>
         pbind ple_u32 fun timestamp =>
         fun k =>
           if unknown ≠ 0 then .error .panicked
           else if unk2 ≠ 0 then .error .panicked
           else if ¬(compressed = 0 ∨ compressed = 1) then .error .panicked
           else if ¬(compression_level = 0 ∨ compression_level = 6) then .error .panicked
           else
             .ok ((FileEntry.file name
               { offset, compressed_len, decompressed_len, unk := unknown,
                 unk2, compressed, compression_level, timestamp }, 0), k)) j

/-- Result of decoding one chunk header (`Parsed` in `parser.rs`). -/
inductive Parsed where
  | chunk (c : Chunk)
  | chunkAndSkip (skip : Nat) (c : Chunk)
  | fileChunkHeader (chunk_len : Nat)

/-- `parse_form_chunk`: `file_size` (be u32) then the 4-byte type tag;
an unknown tag panics. -/
def parse_form_chunk : P Parsed :=
  pbind pbe_u32 fun file_size =>
  pbind (ptake 4) fun pak_type_bytes =>
  fun i =>
    if pak_type_bytes = [0x50, 0x41, 0x43, 0x31] then
      .ok (.chunk (.form file_size .PAC1), i)
    else .error .panicked

/-- `parse_head_chunk`: big-endian length (asserted to be `0x1C`), the
little-endian `version`, then a skip directive for the remaining bytes.  The
recorded `unknown_data` range is exactly what the Rust checkpoint arithmetic
produces: `8..(8 + 4)` relative to the point just after the `HEAD` tag. -/
def parse_head_chunk : P Parsed :=
  pbind pbe_u32 fun header_len =>
  fun i =>
    if header_len ≠ 0x1c then .error .panicked
    else
      (pbind ple_u32 fun version =>
       ppure (Parsed.chunkAndSkip (header_len - 4) (.head version (8, 8 + 4)))) i

/-- `parse_data_chunk`: big-endian payload length, then a skip directive for
the payload.  The recorded range is `4..(4 + data_len)` relative to the point
just after the `DATA` tag, as in the source. -/
def parse_data_chunk : P Parsed :=
  pbind pbe_u32 fun data_len =>
  ppure (Parsed.chunkAndSkip data_len (.data (4, 4 + data_len)))

/-- `parse_file_chunk`: just the chunk length; directory decoding is driven
by the state machine. -/
def parse_file_chunk : P Parsed :=
  pbind pbe_u32 fun chunk_len =>
  ppure (Parsed.fileChunkHeader chunk_len)

/-- `parse_chunk`: the `alt` over the four known four-CC tags.  An unknown
four-CC backtracks out of the `alt`. -/
def parse_chunk : P Parsed :=
  palt2 (pbind (ptag [0x46, 0x4F, 0x52, 0x4D]) fun _ => parse_form_chunk)
    (palt2 (pbind (ptag [0x48, 0x45, 0x41, 0x44]) fun _ => parse_head_chunk)
      (palt2 (pbind (ptag [0x44, 0x41, 0x54, 0x41]) fun _ => parse_data_chunk)
        (pbind (ptag [0x46, 0x49, 0x4C, 0x45]) fun _ => parse_file_chunk)))

/-- A directory parse frame (`Directory` in `parser.rs`). -/
structure Directory where
  is_root : Bool
  children_remaining : Nat
  entry : FileEntry

/-- `PakParserState`.  The `parents` stack is kept head-is-top (the Rust
`Vec` pushes and pops at its end; cons/head is an exact simulation). -/
inductive PakParserState where
  | parsingChunk
  | parsingFileChunk (parsed_root : Bool) (parents : List Directory)
      (bytes_processed : Nat) (chunk_len : Nat)
  | done

/-- Whether the state is `Done`. -/
def PakParserState.isDone : PakParserState → Bool
  | .done => true
  | _ => false

/-- `PakParser`: resumable parser state. -/
structure PakParser where
  state : PakParserState
  chunks : List Chunk
  pak_len : Option Nat
  bytes_parsed : Nat

/-- `PakParser::new`. -/
def PakParser.new : PakParser :=
  { state := .parsingChunk, chunks := [], pak_len := none, bytes_parsed := 0 }

/-- `PakParser::complete`. -/
def PakParser.complete (p : PakParser) : PakFile := ⟨p.chunks⟩

/-- The epilogue of `PakParser::next_state`: commit the new byte count and
chunk list, forcing the state to `Done` once `bytes_parsed` reaches the
recorded `pak_len`. -/
def nextStateFinish (p : PakParser) (bytes_consumed : Nat)
    (st : PakParserState) (chunks : List Chunk) : PakParser :=
  let bytes_parsed := p.bytes_parsed + bytes_consumed
  let st' :=
    match p.pak_len with
    | some pak_len => if bytes_parsed = pak_len then PakParserState.done else st
    | none => st
  { state := st', chunks := chunks, pak_len := p.pak_len,
    bytes_parsed := bytes_parsed }

/-- `PakParser::next_state`: advance `bytes_parsed`; either install the
override state or, in `ParsingFileChunk`, account the consumed bytes against
`chunk_len` and, on completion, assert a single frame remains and push the
`File` chunk; finally force `Done` once `bytes_parsed` reaches `pak_len`. -/
def PakParser.next_state (p : PakParser) (bytes_consumed : Nat)
    (override_state : Option PakParserState) : Except PErr PakParser :=
  match override_state with
  | some o => .ok (nextStateFinish p bytes_consumed o p.chunks)
  | none =>
    match p.state with
    | .parsingChunk => .ok (nextStateFinish p bytes_consumed .parsingChunk p.chunks)
    | .parsingFileChunk parsed_root parents bytes_processed chunk_len =>
      if bytes_processed + bytes_consumed = chunk_len then
        match parents with
        | [d] =>
          .ok (nextStateFinish p bytes_consumed .done
            (p.chunks ++ [Chunk.file d.entry]))
        | _ => .error .panicked
      else
        .ok (nextStateFinish p bytes_consumed
          (.parsingFileChunk parsed_root parents
            (bytes_processed + bytes_consumed) chunk_len) p.chunks)
    | .done => .ok (nextStateFinish p bytes_consumed .done p.chunks)

/-- One step structure for the frame-coalescing loop at the end of
`PakParser::parse_file_entry` (`while let Some(dir) = parents.pop_if(…)`):
`coalesceGo d rest` treats `d` as the current top frame above the stack
`rest`.  While the top frame is complete and not the root its entry is
attached to its parent and the parent's remaining count is decremented
(panicking exactly where the Rust `expect`/`checked_sub` panic). -/
def coalesceGo : Directory → List Directory → Except PErr (List Directory)
  | d, rest =>
    if d.children_remaining = 0 ∧ d.is_root = false then
      match rest with
      | [] => .error .panicked
      | parent :: rest2 =>
        match parent.children_remaining with
        | 0 => .error .panicked
        | n + 1 =>
          coalesceGo
            { parent with
                children_remaining := n,
                entry := parent.entry.push_child d.entry }
            rest2
    else .ok (d :: rest)

/-- The frame-coalescing loop applied to the whole stack (head is top). -/
def coalesce : List Directory → Except PErr (List Directory)
  | [] => .ok []
  | d :: rest => coalesceGo d rest

/-- The state mutation performed by the method `PakParser::parse_file_entry`
after the free `parse_file_entry` returned `(entry, children)`: push a
folder frame (the first folder is the root) or attach a file to the top
frame, then coalesce completed frames.  Returns the updated
`(parsed_root, parents)`. -/
def stepFileEntry (parsed_root : Bool) (parents : List Directory)
    (entry : FileEntry) (children : Nat) : Except PErr (Bool × List Directory) :=
  match entry with
  | .folder _ _ =>
    match coalesce
        ({ is_root := !parsed_root,
           children_remaining := children,
           entry := entry } :: parents) with
    | .error e => .error e
    | .ok parents2 => .ok (true, parents2)
  | .file _ _ =>
    match parents with
    | [] => .error .panicked
    | parent :: rest =>
      match parent.children_remaining with
      | 0 => .error .panicked
      | n + 1 =>
        match coalesce
            ({ parent with
                children_remaining := n,
                entry := parent.entry.push_child entry } :: rest) with
        | .error e => .error e
        | .ok parents2 => .ok (parsed_root, parents2)

/-- `ParserStateMachine`: the transitions surfaced to the caller. -/
inductive ParserStateMachine where
  | loop (p : PakParser)
  | cont (p : PakParser)
  | skip (skip_from : Nat) (count : Nat) (p : PakParser)
  | done (f : PakFile)

/-- The `if let Some(chunk) = chunk && let Chunk::Form { .. } = &chunk`
block in `parse_impl`: when the decoded chunk is a `Form`, record the
archive length (`file_size + (bytes_consumed - 4)`) and append the chunk;
any other decoded chunk (`Head`, `Data`, …) is dropped. -/
def pushFormMaybe (p1 : PakParser) (chunk? : Option Chunk)
    (bytes_consumed : Nat) : PakParser :=
  match chunk? with
  | some (Chunk.form file_size t) =>
    { p1 with pak_len := some (file_size + (bytes_consumed - 4)),
              chunks := p1.chunks ++ [Chunk.form file_size t] }
  | _ => p1

/-- The tail of the `ParsingChunk` branch of `parse_impl` once a chunk
header has been read: dispatch on the `Parsed` value (skip directive,
optional chunk, optional override state), run `next_state`, record the
archive length and push the chunk when it is a `Form`, and surface a
`Skip` transition when bytes must be skipped.  Only `bytes_consumed`
(the checkpoint difference) flows in from the stream. -/
def afterChunk (p : PakParser) (parsed : Parsed) (bytes_consumed : Nat) :
    Except PErr ParserStateMachine :=
  let skip :=
    match parsed with
    | .chunk _ => 0
    | .chunkAndSkip s _ => s
    | .fileChunkHeader _ => 0
  let chunk? :=
    match parsed with
    | .chunk c => some c
    | .chunkAndSkip _ c => some c
    | .fileChunkHeader _ => none
  let state? :=
    match parsed with
    | .fileChunkHeader chunk_len =>
      some (PakParserState.parsingFileChunk false [] 0 chunk_len)
    | _ => none
  match p.next_state (bytes_consumed + skip) state? with
  | .error e => .error e
  | .ok p1 =>
    let skip_from := p1.bytes_parsed - skip
    let p2 := pushFormMaybe p1 chunk? bytes_consumed
    if skip > 0 then .ok (.skip skip_from skip p2)
    else .ok (.loop p2)

/-- The tail of the `ParsingFileChunk` branch of `parse_impl` once one
directory entry has been read: mutate the frame stack, then account the
consumed bytes through `next_state` (which may complete the file chunk). -/
def afterEntry (p : PakParser) (parsed_root : Bool) (parents : List Directory)
    (bytes_processed chunk_len : Nat) (entry : FileEntry) (children : Nat)
    (bytes_consumed : Nat) : Except PErr ParserStateMachine :=
  match stepFileEntry parsed_root parents entry children with
  | .error e => .error e
  | .ok (parsed_root2, parents2) =>
    let p1 := { p with
      state := PakParserState.parsingFileChunk parsed_root2 parents2
        bytes_processed chunk_len }
    match p1.next_state bytes_consumed none with
    | .error e => .error e
    | .ok p2 => .ok (.loop p2)

/-- `PakParser::parse_impl`: one step of the driver.  Besides the
transition, the model returns the remaining input (the stream after the
consumed bytes); on `Continue` the input is reset, exactly as the Rust code
calls `input.reset(&start)`. -/
def PakParser.parse_impl (p : PakParser) (input : List Nat) :
    Except PErr (ParserStateMachine × List Nat) :=
  match p.state with
  | .parsingChunk =>
    match parse_chunk input with
    | .error .incomplete => .ok (.cont p, input)
    | .error e => .error e
    | .ok (parsed, rest) =>
      match afterChunk p parsed (input.length - rest.length) with
      | .error e => .error e
      | .ok m => .ok (m, rest)
  | .parsingFileChunk parsed_root parents bytes_processed chunk_len =>
    match parse_file_entry input with
    | .error .incomplete => .ok (.cont p, input)
    | .error e => .error e
    | .ok ((entry, children), rest) =>
      match afterEntry p parsed_root parents bytes_processed chunk_len entry
          children (input.length - rest.length) with
      | .error e => .error e
      | .ok m => .ok (m, rest)
  | .done => .error .panicked

/-- Fuelled version of `PakParser::parse` (the `while !Done` loop over
`parse_impl` that folds `Loop` transitions away); `none` means the fuel ran
out, which never happens from `fuel > input.length` (see
`parseFuel_isSome`). -/
def PakParser.parseFuel : Nat → PakParser → List Nat →
    Option (Except PErr (ParserStateMachine × List Nat))
  | 0, _, _ => none
  | fuel + 1, p, input =>
    if p.state.isDone then some (.ok (.done p.complete, input))
    else
      match p.parse_impl input with
      | .error e => some (.error e)
      | .ok (.loop q, rest) => PakParser.parseFuel fuel q rest
      | .ok (m, rest) => some (.ok (m, rest))

/-- `PakParser::parse` with adequate fuel. -/
def PakParser.parse (p : PakParser) (input : List Nat) :
    Except PErr (ParserStateMachine × List Nat) :=
  match PakParser.parseFuel (input.length + 1) p input with
  | some r => r
  | none => .error .panicked

/-- Fuelled model of the one-shot driver loop in `PakFile::parse`: run
`parser.parse`, return the archive on `Done`, advance past `parsed + count`
bytes on `Skip` (the Rust re-slicing panics when `count` overruns the
buffer), panic on any other `Ok` transition ("Unexpected state"), surface
`ErrMode::Cut` as the explicit `PakError::ParserError` (kept as `.cut`
here), and panic on any other error ("Unknown error occurred").  Besides
the archive, the model returns the loop's final unconsumed `curr_data`,
which the Rust code simply drops; it is kept to relate the one-shot and
streaming drivers. -/
def oneShotFuel : Nat → PakParser → List Nat →
    Option (Except PErr (PakFile × List Nat))
  | 0, _, _ => none
  | fuel + 1, parser, curr_data =>
    match parser.parse curr_data with
    | .ok (.done pak_file, rest) => some (.ok (pak_file, rest))
    | .ok (.skip _ count nextP, rest) =>
      if count ≤ rest.length then oneShotFuel fuel nextP (rest.drop count)
      else some (.error .panicked)
    | .ok _ => some (.error .panicked)
    | .error .cut => some (.error .cut)
    | .error _ => some (.error .panicked)

/-- The one-shot loop of `PakFile::parse` with adequate fuel. -/
def oneShot (data : List Nat) : Option (Except PErr (PakFile × List Nat)) :=
  oneShotFuel (data.length + 1) PakParser.new data

/-- The one-shot loop of `PakFile::parse` resumed from an arbitrary parser
state on the current data, with the fuel `oneShot` grants that data. -/
def oneShotRun (p : PakParser) (data : List Nat) :
    Option (Except PErr (PakFile × List Nat)) :=
  oneShotFuel (data.length + 1) p data

/-- `PakFile::parse` proper: the archive produced by the one-shot parse. -/
def PakFile.parseBytes (data : List Nat) : Option (Except PErr PakFile) :=
  (oneShot data).map (fun r => r.map Prod.fst)

/-- The byte-at-a-time streaming driver described by the specification:
keep a buffer of supplied bytes; on `Continue` retry after supplying one
more byte from the source (with the cursor logically reset, i.e. restarting
from the unconsumed remainder); on `Skip` discard `count` bytes across the
buffer and then the source; on `Done` stop.  Returns the archive and the
bytes never consumed.  `none` means the fuel ran out; fuel
`buf.length + 2 * src.length + 1` always suffices (each step strictly
decreases that measure). -/
def feedFuel : Nat → PakParser → List Nat → List Nat →
    Option (Except PErr (PakFile × List Nat))
  | 0, _, _, _ => none
  | fuel + 1, p, buf, src =>
    match p.parse buf with
    | .error e => some (.error e)
    | .ok (.done f, rest) => some (.ok (f, rest ++ src))
    | .ok (.cont q, rest) =>
      match src with
      | [] => some (.error .panicked)
      | b :: srest => feedFuel fuel q (rest ++ [b]) srest
    | .ok (.skip _ count q, rest) =>
      if count ≤ rest.length then feedFuel fuel q (rest.drop count) src
      else if count ≤ rest.length + src.length then
        feedFuel fuel q [] (src.drop (count - rest.length))
      else some (.error .panicked)
    | .ok (.loop _, _) => some (.error .panicked)

/-- The byte-at-a-time driver started on an empty buffer with the whole
stream as the source. -/
def feed (data : List Nat) : Option (Except PErr (PakFile × List Nat)) :=
  feedFuel (2 * data.length + 1) PakParser.new [] data

mutual

/-- Size (node count) of a file-entry tree. -/
def entrySize : FileEntry → Nat
  | .folder _ children => 1 + entrySizeL children
  | .file _ _ => 1

/-- Total node count of a list of trees. -/
def entrySizeL : List FileEntry → Nat
  | [] => 0
  | e :: rest => entrySize e + entrySizeL rest

end

/-- The entry-cache construction loop in `PakVfs::new`: the work queue is a
`Vec` used as a stack (pop takes the most recently pushed pair), modelled
head-is-top.  Each iteration computes the node's absolute path, records one
`(path, entry)` insertion, and pushes the children of a folder.  The result
is the list of `entry_cache.insert` calls in chronological order (the
`HashMap` semantics — last insertion wins per key — live in `cacheGet`).
Paths are UTF-8 byte lists; `0x2F` is `/`. -/
def cacheLoop : Nat → List (List Nat × FileEntry) → List (List Nat × FileEntry)
  | _, [] => []
  | 0, _ :: _ => []
  | fuel + 1, (path, current) :: rest =>
    let this_path :=
      if path = [0x2F] then path ++ current.name else path ++ [0x2F] ++ current.name
    let next :=
      match current with
      | .folder _ children => (children.map (fun c => (this_path, c))).reverse ++ rest
      | .file _ _ => rest
    (this_path, current) :: cacheLoop fuel next

/-- The entry cache built by `PakVfs::new` from the root of the `File`
chunk: the queue starts as `[("", root)]`.  The loop consumes exactly one
tree node per iteration, so `entrySize fs` fuel always suffices
(`cacheLoop_length` below shows the fuel is never exhausted). -/
def buildCache (fs : FileEntry) : List (List Nat × FileEntry) :=
  cacheLoop (entrySize fs) [([], fs)]

/-- `PakVfs::new`: `pak.file_chunk().unwrap()` panics when there is no
`File` chunk; the `let Chunk::File { fs } = … else panic!` branch cannot
fire after a successful `find`.  On success the adapter holds the entry
cache. -/
def PakVfs.new (pak : PakFile) : Except PErr (List (List Nat × FileEntry)) :=
  match pak.file_chunk with
  | none => .error .panicked
  | some (Chunk.file fs) => .ok (buildCache fs)
  | some _ => .error .panicked

/-- `HashMap::get` over the chronological insertion list: the last
insertion for a key wins. -/
def cacheGet (cache : List (List Nat × FileEntry)) (key : List Nat) :
    Option FileEntry :=
  (cache.reverse.find? (fun kv => kv.1 = key)).map Prod.snd

/-- Error kinds of the `vfs` crate that the adapter produces. -/
inductive VfsErr where
  | fileNotFound
  | notSupported
  | ioError
deriving DecidableEq, Repr

/-- `PakVfs::entry_at`: the empty path is rewritten to `"/"`, then a single
cache lookup; a miss is `FileNotFound`. -/
def entry_at (cache : List (List Nat × FileEntry)) (path : List Nat) :
    Except VfsErr FileEntry :=
  let lookup_key := if path = [] then [0x2F] else path
  match cacheGet cache lookup_key with
  | some e => .ok e
  | none => .error .fileNotFound

/-- `FileSystem::open_file` for `PakVfs` (`pak_vfs.rs`), parameterised over
the pluggable source (`prime` models `Prime::prime_file`, returning the
fetched bytes for a range) and over the Deflate decoder (`inflate` models
`flate2::read::ZlibDecoder` + `std::io::copy`, which either yields the
inflated bytes or an IO error).  A folder is `NotSupported`; for a file the
range `[offset, offset + compressed_len)` is primed; with
`compressed != 0` the bytes are inflated (decoder failure becomes
`IoError`), otherwise `std::io::copy` moves the primed bytes verbatim. -/
def open_file (cache : List (List Nat × FileEntry))
    (prime : Nat → Nat → List Nat)
    (inflate : List Nat → Except Unit (List Nat))
    (path : List Nat) : Except VfsErr (List Nat) :=
  match entry_at cache path with
  | .error e => .error e
  | .ok (.folder _ _) => .error .notSupported
  | .ok (.file _ m) =>
    let data_start := m.offset
    let data_end := data_start + m.compressed_len
    let primed := prime data_start data_end
    if m.compressed ≠ 0 then
      match inflate primed with
      | .error _ => .error .ioError
      | .ok data => .ok data
    else .ok primed

/-- `VfsMetadata` as filled in by the adapter (timestamps are always
`None` in the source and omitted here). -/
inductive VfsFileTypeM where
  | directory
  | fileType
deriving DecidableEq, Repr

/-- `FileSystem::metadata` for `PakVfs`: directories report length 0, files
report `decompressed_len`. -/
def metadata (cache : List (List Nat × FileEntry)) (path : List Nat) :
    Except VfsErr (VfsFileTypeM × Nat) :=
  match entry_at cache path with
  | .error e => .error e
  | .ok (.folder _ _) => .ok (.directory, 0)
  | .ok (.file _ m) => .ok (.fileType, m.decompressed_len)

/-- The outcome of a mutating `FileSystem` operation on `PakVfs`: either
the explicit `VfsErrorKind::NotSupported` error value, or a `todo!()`
panic. -/
inductive MutatingOutcome where
  | notSupported
  | todoPanic
deriving DecidableEq, Repr

/-- The mutating operations of the `vfs` `FileSystem`/`AsyncFileSystem`
traits. -/
inductive MutatingOp where
  | create_dir
  | create_file
  | append_file
  | remove_file
  | remove_dir
  | set_creation_time
  | set_modification_time
  | set_access_time
  | copy_file
  | move_file
  | move_dir
deriving DecidableEq, Repr

/-- What each mutating operation of the `FileSystem for PakVfs` impl
(`pak_vfs.rs`, mirrored verbatim in the `AsyncFileSystem` impl in
`async_pak_vfs.rs`) does, independent of its path arguments:
`create_dir`, `create_file`, `append_file`, `remove_file` and `remove_dir`
are `todo!()` (a panic); the three time setters and `copy_file`,
`move_file`, `move_dir` return `NotSupported`. -/
def mutatingOpResult : MutatingOp → MutatingOutcome
  | .create_dir => .todoPanic
  | .create_file => .todoPanic
  | .append_file => .todoPanic
  | .remove_file => .todoPanic
  | .remove_dir => .todoPanic
  | .set_creation_time => .notSupported
  | .set_modification_time => .notSupported
  | .set_access_time => .notSupported
  | .copy_file => .notSupported
  | .move_file => .notSupported
  | .move_dir => .notSupported

/-- An `oval::Buffer`: an allocation of fixed `capacity` whose readable
part is `filled` (`Buffer::data()` returns the filled part). -/
structure OvalBuffer where
  capacity : Nat
  filled : List Nat
deriving DecidableEq, Repr

/-- `oval::Buffer::with_capacity`: fresh buffer, nothing filled. -/
def OvalBuffer.with_capacity (n : Nat) : OvalBuffer :=
  { capacity := n, filled := [] }

/-- `Prime::prime_file` for `CachingAsyncPakFileWrapper`
(`wrappers/async_reader.rs`): ignores the requested range (and the handle
and cache) and returns a zero-capacity, empty buffer. -/
def CachingWrapper.prime_file_sync (_file_range : Nat × Nat) :
    Except VfsErr OvalBuffer :=
  .ok (OvalBuffer.with_capacity 0)

/-- A cached entry of `CachingAsyncPakFileWrapper`, reduced to what the
eviction logic reads: its exact range key and its buffer's capacity
(`Buffer::with_capacity(file_size)`, so capacity = range length). -/
abbrev CacheEntry := (Nat × Nat) × Nat

/-- The 20 MiB cache ceiling (`MEM_LIMIT` in `async_reader.rs`). -/
def MEM_LIMIT : Nat := 1024 * 1024 * 20

/-- Aggregate byte capacity of the cache. -/
def memUsage (buffers : List CacheEntry) : Nat :=
  (buffers.map Prod.snd).sum

/-- The eviction loop of `AsyncPrime::prime_file`: walk the
capacity-sorted snapshot, remove each entry from the live map and subtract
its capacity, stopping as soon as the running total drops below
`MEM_LIMIT`. -/
def evictLoop : List CacheEntry → List CacheEntry → Nat → List CacheEntry
  | [], buffers, _ => buffers
  | (k, v) :: restSorted, buffers, mem_usage =>
    let buffers1 := buffers.filter (fun e => e.1 ≠ k)
    if mem_usage - v < MEM_LIMIT then buffers1
    else evictLoop restSorted buffers1 (mem_usage - v)

/-- `AsyncPrime::prime_file` for `CachingAsyncPakFileWrapper`, restricted
to its effect on the cache map: a hit leaves the map unchanged; a miss
fetches, then — only when the pre-insertion aggregate strictly exceeds
`MEM_LIMIT` — evicts entries in ascending capacity order until the
running total is strictly below `MEM_LIMIT`, and finally inserts the new
entry (capacity = range length) unconditionally. -/
def prime_file_async (buffers : List CacheEntry) (file_range : Nat × Nat) :
    List CacheEntry :=
  match buffers.find? (fun e => e.1 = file_range) with
  | some _ => buffers
  | none =>
    let file_size := file_range.2 - file_range.1
    let mem_usage := memUsage buffers
    let buffers1 :=
      if mem_usage > MEM_LIMIT then
        evictLoop (buffers.mergeSort (fun a b => a.2 ≤ b.2)) buffers mem_usage
      else buffers
    buffers1 ++ [(file_range, file_size)]

/-- `Chunk::is_form` (generated by `Variantly` in the source). -/
def Chunk.is_form : Chunk → Bool
  | .form _ _ => true
  | _ => false

/-- `Chunk::is_head` (generated by `Variantly` in the source). -/
def Chunk.is_head : Chunk → Bool
  | .head _ _ => true
  | _ => false

/-- Whether a chunk is of one of the two kinds the parser ever appends. -/
def chunkKindOk (c : Chunk) : Bool :=
  c.is_form || c.is_file

/-- The sync `Prime` of the caching wrapper, as `open_file` consumes it:
the returned buffer's readable bytes (`as_ref()` on `BufferWrapper`
returns `Buffer::data()`). -/
def sync_wrapper_prime (s e : Nat) : List Nat :=
  match CachingWrapper.prime_file_sync (s, e) with
  | .ok buf => buf.filled
  | .error _ => []

/-- The `Prime` impl used by the in-memory wrappers
(`&self.source[file_range]`): a slice of the backing bytes.  (The Rust
slice panics out of range; concrete uses below stay in range.) -/
def slicePrime (src : List Nat) (s e : Nat) : List Nat :=
  (src.take e).drop s

/-- A minimal well-formed archive: `FORM` (file_size 18, `PAC1`) then a
`FILE` chunk (length 6) holding one root folder with empty name and zero
children.  Its total length 26 equals the derived archive length
`file_size + 8`. -/
def bytesMin : List Nat :=
  [0x46, 0x4F, 0x52, 0x4D, 0, 0, 0, 18, 0x50, 0x41, 0x43, 0x31,
   0x46, 0x49, 0x4C, 0x45, 0, 0, 0, 6, 0, 0, 0, 0, 0, 0]

/-- The archive `bytesMin` parses to. -/
def pakMin : PakFile :=
  ⟨[Chunk.form 18 .PAC1, Chunk.file (FileEntry.folder [] [])]⟩

/-- `bytesMin` with one trailing byte the parser never consumes. -/
def bytesMinPad : List Nat := bytesMin ++ [0x41]

/-- A well-formed archive containing a `HEAD` chunk (version 1, `0x18`
opaque zero bytes) between `FORM` and the minimal `FILE` chunk; total
length 62 = `file_size 54 + 8`. -/
def bytesHead : List Nat :=
  [0x46, 0x4F, 0x52, 0x4D, 0, 0, 0, 54, 0x50, 0x41, 0x43, 0x31,
   0x48, 0x45, 0x41, 0x44, 0, 0, 0, 0x1C, 1, 0, 0, 0]
  ++ List.replicate 24 0
  ++ [0x46, 0x49, 0x4C, 0x45, 0, 0, 0, 6, 0, 0, 0, 0, 0, 0]

/-- An archive whose `FILE` chunk contains an entry with the name byte
`0xFF`, which is not valid UTF-8: `FORM`, then a `FILE` chunk whose root
folder announces one child, followed by a file entry of kind 1, name
length 1 and name byte `0xFF`. -/
def bytesBadUtf8 : List Nat :=
  [0x46, 0x4F, 0x52, 0x4D, 0, 0, 0, 40, 0x50, 0x41, 0x43, 0x31,
   0x46, 0x49, 0x4C, 0x45, 0, 0, 0, 34, 0, 0, 1, 0, 0, 0,
   1, 1, 0xFF]

/-- Metadata of the file entry `"a"` in `bytesA`: stored (not deflated)
payload of 3 bytes at offset 20, `decompressed_len` recorded as 5. -/
def metaA : FileMeta :=
  { offset := 20, compressed_len := 3, decompressed_len := 5, unk := 0,
    unk2 := 0, compressed := 0, compression_level := 0,
    timestamp := 0x09090909 }

/-- An archive with one stored file: `FORM` (file_size 56), a `DATA` chunk
with the 3-byte payload `"hi!"` at stream offsets 20..23, then a `FILE`
chunk holding the root folder (1 child) and a file `"a"` with
`offset = 20`, `compressed_len = 3`, `decompressed_len = 5` and
`compressed_flag = 0`. -/
def bytesA : List Nat :=
  [0x46, 0x4F, 0x52, 0x4D, 0, 0, 0, 56, 0x50, 0x41, 0x43, 0x31,
   0x44, 0x41, 0x54, 0x41, 0, 0, 0, 3, 104, 105, 33,
   0x46, 0x49, 0x4C, 0x45, 0, 0, 0, 33, 0, 0, 1, 0, 0, 0,
   1, 1, 97, 20, 0, 0, 0, 3, 0, 0, 0, 5, 0, 0, 0, 0, 0, 0, 0, 0, 0,
   0, 0, 9, 9, 9, 9]

/-- The root entry `bytesA` parses to. -/
def rootA : FileEntry :=
  .folder [] [.file [97] metaA]

/-- The archive `bytesA` parses to (the `DATA` chunk is decoded but never
appended by `parse_impl`). -/
def pakA : PakFile :=
  ⟨[Chunk.form 56 .PAC1, Chunk.file rootA]⟩

/-- The entry cache `PakVfs::new` builds for `bytesA`. -/
def cacheA : List (List Nat × FileEntry) :=
  buildCache rootA

/-- Extension stability of a parser over a partial stream: a successful
parse is unaffected by appending further bytes, and a non-`Incomplete`
failure persists.  This is the property that lets the same parser serve
the whole-buffer and the streaming drivers. -/
def Mono {α : Type} (p : P α) : Prop :=
  ∀ i ext : List Nat,
    (∀ a r, p i = .ok (a, r) → p (i ++ ext) = .ok (a, r ++ ext))
    ∧ (∀ e, e ≠ PErr.incomplete → p i = .error e → p (i ++ ext) = .error e)

/-- Non-expansion: a successful parse leaves at most the input. -/
def NonExpanding {α : Type} (p : P α) : Prop :=
  ∀ i a r, p i = Except.ok (a, r) → r.length ≤ i.length

/-- Strict consumption: a successful parse consumes at least one byte. -/
def Consuming {α : Type} (p : P α) : Prop :=
  ∀ i a r, p i = Except.ok (a, r) → r.length < i.length

/-! ## Helper lemmas -/

theorem pbind_ok {α β : Type} (p : P α) (f : α → P β) (i : List Nat)
    (b : β) (r : List Nat) (h : pbind p f i = .ok (b, r)) :
    ∃ a r1, p i = .ok (a, r1) ∧ f a r1 = .ok (b, r) := by
  unfold pbind at h
  cases hp : p i with
  | error e => rw [hp] at h; simp at h
  | ok v =>
    obtain ⟨a, r1⟩ := v
    rw [hp] at h
    exact ⟨a, r1, rfl, h⟩

theorem mono_ppure {α : Type} (a : α) : Mono (ppure a) := by
  intro i ext
  constructor
  · intro a2 r h
    unfold ppure at h ⊢
    simp only [Except.ok.injEq, Prod.mk.injEq] at h
    rw [h.1, ← h.2]
  · intro e _ h
    unfold ppure at h
    simp at h

theorem mono_pfail {α : Type} (e : PErr) : Mono (pfail e : P α) := by
  intro i ext
  constructor
  · intro a r h
    unfold pfail at h
    simp at h
  · intro e2 _ h
    unfold pfail at h ⊢
    simp only [Except.error.injEq] at h
    rw [h]

theorem mono_pu8 : Mono pu8 := by
  intro i ext
  constructor
  · intro a r h
    cases i with
    | nil => simp [pu8] at h
    | cons b bs =>
      unfold pu8 at h ⊢
      simp only [Except.ok.injEq, Prod.mk.injEq] at h
      simp [h.1, ← h.2]
  · intro e he h
    cases i with
    | nil =>
      unfold pu8 at h
      simp only [Except.error.injEq] at h
      exact absurd h.symm he
    | cons b bs => simp [pu8] at h

theorem mono_ptake (n : Nat) : Mono (ptake n) := by
  intro i ext
  constructor
  · intro a r h
    unfold ptake at h ⊢
    by_cases hle : n ≤ i.length
    · rw [if_pos hle] at h
      simp only [Except.ok.injEq, Prod.mk.injEq] at h
      rw [if_pos (by simp; omega)]
      rw [List.take_append_of_le_length hle, List.drop_append_of_le_length hle]
      simp [h.1, ← h.2]
    · rw [if_neg hle] at h
      simp at h
  · intro e he h
    unfold ptake at h
    by_cases hle : n ≤ i.length
    · rw [if_pos hle] at h
      simp at h
    · rw [if_neg hle] at h
      simp only [Except.error.injEq] at h
      exact absurd h.symm he

theorem mono_pbind {α β : Type} (p : P α) (f : α → P β)
    (hp : Mono p) (hf : ∀ a, Mono (f a)) : Mono (pbind p f) := by
  intro i ext
  constructor
  · intro b r h
    obtain ⟨a, r1, hpi, hfi⟩ := pbind_ok p f i b r h
    unfold pbind
    rw [(hp i ext).1 a r1 hpi]
    exact ((hf a) r1 ext).1 b r hfi
  · intro e he h
    unfold pbind at h ⊢
    cases hpi : p i with
    | error e2 =>
      rw [hpi] at h
      simp only [Except.error.injEq] at h
      have he2 : e2 ≠ PErr.incomplete := by rw [h]; exact he
      rw [(hp i ext).2 e2 he2 hpi]
      simp [h]
    | ok v =>
      obtain ⟨a, r1⟩ := v
      rw [hpi] at h
      rw [(hp i ext).1 a r1 hpi]
      exact ((hf a) r1 ext).2 e he h

theorem mono_pmatch {γ α : Type} (x : Except PErr γ) (f : γ → P α)
    (hf : ∀ c, Mono (f c)) : Mono (pmatch x f) := by
  unfold pmatch
  cases x with
  | error e =>
    intro i ext
    constructor
    · intro a r h
      simp at h
    · intro e2 _ h
      simp only [Except.error.injEq] at h
      simp [h]
  | ok c => exact hf c

theorem mono_ite {α : Type} (c : Prop) [Decidable c] (p q : P α)
    (hp : Mono p) (hq : Mono q) :
    Mono (fun i => if c then p i else q i) := by
  by_cases hc : c
  · simp only [if_pos hc]
    exact hp
  · simp only [if_neg hc]
    exact hq

theorem mono_ptag (t : List Nat) : Mono (ptag t) := by
  intro i ext
  constructor
  · intro a r h
    unfold ptag at h ⊢
    by_cases hle : t.length ≤ i.length
    · rw [if_pos hle] at h
      rw [if_pos (by simp; omega)]
      by_cases heq : i.take t.length = t
      · rw [if_pos heq] at h
        rw [if_pos (by rw [List.take_append_of_le_length hle]; exact heq)]
        simp only [Except.ok.injEq, Prod.mk.injEq] at h
        rw [List.drop_append_of_le_length hle]
        simp [h.1, ← h.2]
      · rw [if_neg heq] at h
        simp at h
    · rw [if_neg hle] at h
      split at h <;> simp at h
  · intro e he h
    unfold ptag at h ⊢
    by_cases hle : t.length ≤ i.length
    · rw [if_pos hle] at h
      by_cases heq : i.take t.length = t
      · rw [if_pos heq] at h
        simp at h
      · rw [if_neg heq] at h
        simp only [Except.error.injEq] at h
        subst h
        rw [if_pos (by simp; omega)]
        rw [if_neg (by rw [List.take_append_of_le_length hle]; exact heq)]
    · rw [if_neg hle] at h
      by_cases heq : i = t.take i.length
      · rw [if_pos heq] at h
        simp only [Except.error.injEq] at h
        exact absurd h.symm he
      · rw [if_neg heq] at h
        simp only [Except.error.injEq] at h
        subst h
        by_cases hle2 : t.length ≤ i.length + ext.length
        · rw [if_pos (by simpa using hle2)]
          rw [if_neg ?_]
          intro habs
          apply heq
          have := congrArg (fun l => List.take i.length l) habs
          simpa [List.take_append_of_le_length (le_refl i.length),
            List.take_take, Nat.le_of_lt (Nat.lt_of_not_le hle)] using this
        · rw [if_neg (by simpa using hle2)]
          rw [if_neg ?_]
          intro habs
          apply heq
          have := congrArg (fun l => List.take i.length l) habs
          simpa [List.take_append_of_le_length (le_refl i.length),
            List.take_take, Nat.le_of_lt (Nat.lt_of_not_le hle)] using this

theorem mono_palt2 {α : Type} (p q : P α) (hp : Mono p) (hq : Mono q) :
    Mono (palt2 p q) := by
  intro i ext
  constructor
  · intro a r h
    unfold palt2 at h ⊢
    cases hpi : p i with
    | ok v =>
      rw [hpi] at h
      obtain ⟨a1, r1⟩ := v
      rw [(hp i ext).1 a1 r1 hpi]
      have h2 : Except.ok (a1, r1) = Except.ok (a, r) := h
      simp only [Except.ok.injEq, Prod.mk.injEq] at h2
      show Except.ok (a1, r1 ++ ext) = Except.ok (a, r ++ ext)
      rw [h2.1, h2.2]
    | error e =>
      rw [hpi] at h
      cases e with
      | backtrack =>
        rw [(hp i ext).2 .backtrack (by simp) hpi]
        exact (hq i ext).1 a r h
      | incomplete => simp at h
      | cut => simp at h
      | panicked => simp at h
  · intro e he h
    unfold palt2 at h ⊢
    cases hpi : p i with
    | ok v =>
      rw [hpi] at h
      simp at h
    | error e2 =>
      rw [hpi] at h
      cases e2 with
      | backtrack =>
        rw [(hp i ext).2 .backtrack (by simp) hpi]
        exact (hq i ext).2 e he h
      | incomplete =>
        simp only [Except.error.injEq] at h
        exact absurd h.symm he
      | cut =>
        simp only [Except.error.injEq] at h
        subst h
        rw [(hp i ext).2 .cut (by simp) hpi]
      | panicked =>
        simp only [Except.error.injEq] at h
        subst h
        rw [(hp i ext).2 .panicked (by simp) hpi]

theorem mono_pbe_u32 : Mono pbe_u32 :=
  mono_pbind _ _ (mono_ptake 4) (fun _ => mono_ppure _)

theorem mono_ple_u32 : Mono ple_u32 :=
  mono_pbind _ _ (mono_ptake 4) (fun _ => mono_ppure _)

theorem mono_ple_u16 : Mono ple_u16 :=
  mono_pbind _ _ (mono_ptake 2) (fun _ => mono_ppure _)

theorem mono_parse_form_chunk : Mono parse_form_chunk := by
  unfold parse_form_chunk
  apply mono_pbind _ _ mono_pbe_u32
  intro fs
  apply mono_pbind _ _ (mono_ptake 4)
  intro tb
  exact mono_ite _ _ _ (mono_ppure _) (mono_pfail _)

theorem mono_parse_head_chunk : Mono parse_head_chunk := by
  unfold parse_head_chunk
  apply mono_pbind _ _ mono_pbe_u32
  intro hl
  exact mono_ite _ _ _ (mono_pfail _)
    (mono_pbind _ _ mono_ple_u32 (fun _ => mono_ppure _))

theorem mono_parse_data_chunk : Mono parse_data_chunk :=
  mono_pbind _ _ mono_pbe_u32 (fun _ => mono_ppure _)

theorem mono_parse_file_chunk : Mono parse_file_chunk :=
  mono_pbind _ _ mono_pbe_u32 (fun _ => mono_ppure _)

theorem mono_parse_chunk : Mono parse_chunk := by
  unfold parse_chunk
  apply mono_palt2
  · exact mono_pbind _ _ (mono_ptag _) (fun _ => mono_parse_form_chunk)
  · apply mono_palt2
    · exact mono_pbind _ _ (mono_ptag _) (fun _ => mono_parse_head_chunk)
    · apply mono_palt2
      · exact mono_pbind _ _ (mono_ptag _) (fun _ => mono_parse_data_chunk)
      · exact mono_pbind _ _ (mono_ptag _) (fun _ => mono_parse_file_chunk)

theorem mono_parse_file_entry : Mono parse_file_entry := by
  unfold parse_file_entry
  apply mono_pbind _ _ mono_pu8
  intro kind_byte
  apply mono_pmatch
  intro entry_kind
  apply mono_pbind _ _ mono_pu8
  intro name_len
  apply mono_pbind _ _ (mono_ptake name_len)
  intro name
  apply mono_ite
  · exact mono_pfail _
  · cases entry_kind with
    | folderKind =>
      exact mono_pbind _ _ mono_ple_u32 (fun _ => mono_ppure _)
    | fileKind =>
      apply mono_pbind _ _ mono_ple_u32
      intro offset
      apply mono_pbind _ _ mono_ple_u32
      intro clen
      apply mono_pbind _ _ mono_ple_u32
      intro dlen
      apply mono_pbind _ _ mono_ple_u32
      intro unk
      apply mono_pbind _ _ mono_ple_u16
      intro unk2
      apply mono_pbind _ _ mono_pu8
      intro comp
      apply mono_pbind _ _ mono_pu8
      intro lvl
      apply mono_pbind _ _ mono_ple_u32
      intro ts
      apply mono_ite
      · exact mono_pfail _
      · apply mono_ite
        · exact mono_pfail _
        · apply mono_ite
          · exact mono_pfail _
          · apply mono_ite
            · exact mono_pfail _
            · exact mono_ppure _

theorem nonexp_ppure {α : Type} (a : α) : NonExpanding (ppure a) := by
  intro i a2 r h
  unfold ppure at h
  simp only [Except.ok.injEq, Prod.mk.injEq] at h
  rw [← h.2]

theorem nonexp_pfail {α : Type} (e : PErr) : NonExpanding (pfail e : P α) := by
  intro i a r h
  unfold pfail at h
  simp at h

theorem nonexp_pu8 : NonExpanding pu8 := by
  intro i a r h
  cases i with
  | nil => simp [pu8] at h
  | cons b bs =>
    unfold pu8 at h
    simp only [Except.ok.injEq, Prod.mk.injEq] at h
    rw [← h.2]
    simp

theorem nonexp_ptake (n : Nat) : NonExpanding (ptake n) := by
  intro i a r h
  unfold ptake at h
  by_cases hle : n ≤ i.length
  · rw [if_pos hle] at h
    simp only [Except.ok.injEq, Prod.mk.injEq] at h
    rw [← h.2]
    simp
  · rw [if_neg hle] at h
    simp at h

theorem nonexp_pbind {α β : Type} (p : P α) (f : α → P β)
    (hp : NonExpanding p) (hf : ∀ a, NonExpanding (f a)) :
    NonExpanding (pbind p f) := by
  intro i b r h
  obtain ⟨a, r1, hpi, hfi⟩ := pbind_ok p f i b r h
  exact le_trans (hf a r1 b r hfi) (hp i a r1 hpi)

theorem nonexp_pmatch {γ α : Type} (x : Except PErr γ) (f : γ → P α)
    (hf : ∀ c, NonExpanding (f c)) : NonExpanding (pmatch x f) := by
  unfold pmatch
  cases x with
  | error e => intro i a r h; simp at h
  | ok c => exact hf c

theorem nonexp_ite {α : Type} (c : Prop) [Decidable c] (p q : P α)
    (hp : NonExpanding p) (hq : NonExpanding q) :
    NonExpanding (fun i => if c then p i else q i) := by
  by_cases hc : c
  · simp only [if_pos hc]; exact hp
  · simp only [if_neg hc]; exact hq

theorem nonexp_ple_u32 : NonExpanding ple_u32 :=
  nonexp_pbind _ _ (nonexp_ptake 4) (fun _ => nonexp_ppure _)

theorem nonexp_ple_u16 : NonExpanding ple_u16 :=
  nonexp_pbind _ _ (nonexp_ptake 2) (fun _ => nonexp_ppure _)

theorem nonexp_pbe_u32 : NonExpanding pbe_u32 :=
  nonexp_pbind _ _ (nonexp_ptake 4) (fun _ => nonexp_ppure _)

theorem consuming_pu8 : Consuming pu8 := by
  intro i a r h
  cases i with
  | nil => simp [pu8] at h
  | cons b bs =>
    unfold pu8 at h
    simp only [Except.ok.injEq, Prod.mk.injEq] at h
    rw [← h.2]
    simp

theorem consuming_ptag_of_pos (t : List Nat) (ht : 0 < t.length) :
    Consuming (ptag t) := by
  intro i a r h
  unfold ptag at h
  by_cases hle : t.length ≤ i.length
  · rw [if_pos hle] at h
    by_cases heq : i.take t.length = t
    · rw [if_pos heq] at h
      simp only [Except.ok.injEq, Prod.mk.injEq] at h
      rw [← h.2]
      simp
      omega
    · rw [if_neg heq] at h
      simp at h
  · rw [if_neg hle] at h
    split at h <;> simp at h

theorem consuming_pbind {α β : Type} (p : P α) (f : α → P β)
    (hp : Consuming p) (hf : ∀ a, NonExpanding (f a)) :
    Consuming (pbind p f) := by
  intro i b r h
  obtain ⟨a, r1, hpi, hfi⟩ := pbind_ok p f i b r h
  exact lt_of_le_of_lt (hf a r1 b r hfi) (hp i a r1 hpi)

theorem consuming_palt2 {α : Type} (p q : P α)
    (hp : Consuming p) (hq : Consuming q) : Consuming (palt2 p q) := by
  intro i a r h
  unfold palt2 at h
  cases hpi : p i with
  | ok v =>
    rw [hpi] at h
    have h2 : Except.ok v = Except.ok (a, r) := h
    rw [h2] at hpi
    exact hp i a r hpi
  | error e =>
    rw [hpi] at h
    cases e with
    | backtrack => exact hq i a r h
    | incomplete => simp at h
    | cut => simp at h
    | panicked => simp at h

theorem consuming_parse_chunk : Consuming parse_chunk := by
  have hbody : ∀ (t : List Nat) (body : P Parsed), t.length = 4 →
      NonExpanding body →
      Consuming (pbind (ptag t) (fun _ => body)) := by
    intro t body ht hb
    exact consuming_pbind _ _ (consuming_ptag_of_pos t (by omega)) (fun _ => hb)
  have hform : NonExpanding parse_form_chunk := by
    unfold parse_form_chunk
    exact nonexp_pbind _ _ nonexp_pbe_u32 (fun _ => nonexp_pbind _ _
      (nonexp_ptake 4) (fun _ => nonexp_ite _ _ _ (nonexp_ppure _) (nonexp_pfail _)))
  have hhead : NonExpanding parse_head_chunk := by
    unfold parse_head_chunk
    exact nonexp_pbind _ _ nonexp_pbe_u32 (fun _ => nonexp_ite _ _ _
      (nonexp_pfail _) (nonexp_pbind _ _ nonexp_ple_u32 (fun _ => nonexp_ppure _)))
  have hdata : NonExpanding parse_data_chunk :=
    nonexp_pbind _ _ nonexp_pbe_u32 (fun _ => nonexp_ppure _)
  have hfile : NonExpanding parse_file_chunk :=
    nonexp_pbind _ _ nonexp_pbe_u32 (fun _ => nonexp_ppure _)
  unfold parse_chunk
  exact consuming_palt2 _ _ (hbody _ _ rfl hform)
    (consuming_palt2 _ _ (hbody _ _ rfl hhead)
      (consuming_palt2 _ _ (hbody _ _ rfl hdata) (hbody _ _ rfl hfile)))

theorem consuming_parse_file_entry : Consuming parse_file_entry := by
  unfold parse_file_entry
  apply consuming_pbind _ _ consuming_pu8
  intro kind_byte
  apply nonexp_pmatch
  intro entry_kind
  apply nonexp_pbind _ _ nonexp_pu8
  intro name_len
  apply nonexp_pbind _ _ (nonexp_ptake name_len)
  intro name
  apply nonexp_ite
  · exact nonexp_pfail _
  · cases entry_kind with
    | folderKind =>
      exact nonexp_pbind _ _ nonexp_ple_u32 (fun _ => nonexp_ppure _)
    | fileKind =>
      apply nonexp_pbind _ _ nonexp_ple_u32
      intro offset
      apply nonexp_pbind _ _ nonexp_ple_u32
      intro clen
      apply nonexp_pbind _ _ nonexp_ple_u32
      intro dlen
      apply nonexp_pbind _ _ nonexp_ple_u32
      intro unk
      apply nonexp_pbind _ _ nonexp_ple_u16
      intro unk2
      apply nonexp_pbind _ _ nonexp_pu8
      intro comp
      apply nonexp_pbind _ _ nonexp_pu8
      intro lvl
      apply nonexp_pbind _ _ nonexp_ple_u32
      intro ts
      apply nonexp_ite
      · exact nonexp_pfail _
      · apply nonexp_ite
        · exact nonexp_pfail _
        · apply nonexp_ite
          · exact nonexp_pfail _
          · apply nonexp_ite
            · exact nonexp_pfail _
            · exact nonexp_ppure _

theorem entrySizeL_eq_sum (l : List FileEntry) :
    entrySizeL l = (l.map entrySize).sum := by
  induction l with
  | nil => simp [entrySizeL]
  | cons e rest ih => simp [entrySizeL, ih]

theorem entrySize_pos (e : FileEntry) : 1 ≤ entrySize e := by
  cases e <;> simp [entrySize]

theorem cacheLoop_length (fuel : Nat) :
    ∀ q : List (List Nat × FileEntry),
      (q.map (fun kv => entrySize kv.2)).sum ≤ fuel →
      (cacheLoop fuel q).length = (q.map (fun kv => entrySize kv.2)).sum := by
  induction fuel with
  | zero =>
    intro q h
    match q with
    | [] => simp [cacheLoop]
    | (p, c) :: rest =>
      exfalso
      have := entrySize_pos c
      simp at h
      omega
  | succ fuel ih =>
    intro q h
    match q with
    | [] => simp [cacheLoop]
    | (p, c) :: rest =>
      cases c with
      | file n m =>
        have hrest : ((rest.map (fun kv => entrySize kv.2)).sum) ≤ fuel := by
          simp [entrySize] at h ⊢
          omega
        simp [cacheLoop, entrySize, ih rest hrest]
        omega
      | folder n children =>
        have hsz : entrySize (FileEntry.folder n children)
            = 1 + (children.map entrySize).sum := by
          simp [entrySize, entrySizeL_eq_sum]
        have hnext : ∀ p2 : List Nat,
            (((children.map (fun c => (p2, c))).reverse
                ++ rest).map (fun kv => entrySize kv.2)).sum
              = (children.map entrySize).sum
                + (rest.map (fun kv => entrySize kv.2)).sum := by
          intro p2
          simp [List.map_append, List.map_reverse, List.sum_append,
            List.sum_reverse, List.map_map, Function.comp_def]
        simp only [cacheLoop, List.length_cons]
        rw [ih _ (by rw [hnext]; simp only [List.map_cons, List.sum_cons, hsz] at h; omega)]
        rw [hnext]
        simp only [List.map_cons, List.sum_cons, hsz]
        omega

theorem nextStateFinish_chunks (p : PakParser) (n : Nat) (st : PakParserState)
    (chunks : List Chunk) : (nextStateFinish p n st chunks).chunks = chunks := rfl

theorem next_state_chunks (p : PakParser) (n : Nat) (o : Option PakParserState)
    (q : PakParser) (hok : p.next_state n o = .ok q)
    (hp : p.chunks.all chunkKindOk = true) : q.chunks.all chunkKindOk = true := by
  unfold PakParser.next_state at hok
  split at hok
  · simp only [Except.ok.injEq] at hok
    subst hok
    rw [nextStateFinish_chunks]
    exact hp
  · split at hok
    · simp only [Except.ok.injEq] at hok
      subst hok
      rw [nextStateFinish_chunks]
      exact hp
    · split at hok
      · split at hok
        · simp only [Except.ok.injEq] at hok
          subst hok
          rw [nextStateFinish_chunks, List.all_append]
          simp [hp, chunkKindOk, Chunk.is_file, Chunk.is_form]
        · simp at hok
      · simp only [Except.ok.injEq] at hok
        subst hok
        rw [nextStateFinish_chunks]
        exact hp
    · simp only [Except.ok.injEq] at hok
      subst hok
      rw [nextStateFinish_chunks]
      exact hp

theorem afterChunk_chunks (p : PakParser) (parsed : Parsed) (n : Nat)
    (m : ParserStateMachine) (hok : afterChunk p parsed n = .ok m)
    (hp : p.chunks.all chunkKindOk = true) :
    (∀ q, (m = .loop q ∨ m = .cont q ∨ ∃ a b, m = .skip a b q) →
      q.chunks.all chunkKindOk = true)
    ∧ (∀ f, m = .done f → f.chunks.all chunkKindOk = true) := by
  unfold afterChunk at hok
  have main : ∀ (sk : Nat) (c? : Option Chunk) (st? : Option PakParserState),
      (match p.next_state (n + sk) st? with
        | Except.error e => (Except.error e : Except PErr ParserStateMachine)
        | Except.ok p1 =>
          let skip_from := p1.bytes_parsed - sk
          let p2 := pushFormMaybe p1 c? n
          if sk > 0 then Except.ok (ParserStateMachine.skip skip_from sk p2)
          else Except.ok (ParserStateMachine.loop p2)) = Except.ok m →
      (∀ q, (m = .loop q ∨ m = .cont q ∨ ∃ a b, m = .skip a b q) →
        q.chunks.all chunkKindOk = true)
      ∧ (∀ f, m = .done f → f.chunks.all chunkKindOk = true) := by
    intro sk c? st? hok2
    cases hns : p.next_state (n + sk) st? with
    | error e => rw [hns] at hok2; simp at hok2
    | ok p1 =>
      rw [hns] at hok2
      simp only at hok2
      have hp1 := next_state_chunks p _ _ p1 hns hp
      have hp2 : (pushFormMaybe p1 c? n).chunks.all chunkKindOk = true := by
        unfold pushFormMaybe
        match c? with
        | none => exact hp1
        | some c =>
          cases c <;>
            simp_all [List.all_append, chunkKindOk, Chunk.is_form, Chunk.is_file]
      by_cases hsk : sk > 0
      · rw [if_pos hsk] at hok2
        simp only [Except.ok.injEq] at hok2
        refine ⟨fun q hq => ?_, fun f hf => ?_⟩
        · rcases hq with hq | hq | ⟨a, b, hq⟩
          · rw [← hok2] at hq; cases hq
          · rw [← hok2] at hq; cases hq
          · rw [← hok2] at hq
            injection hq with h1 h2 h3
            subst h3
            exact hp2
        · rw [← hok2] at hf; cases hf
      · rw [if_neg hsk] at hok2
        simp only [Except.ok.injEq] at hok2
        refine ⟨fun q hq => ?_, fun f hf => ?_⟩
        · rcases hq with hq | hq | ⟨a, b, hq⟩
          · rw [← hok2] at hq
            injection hq with h1
            subst h1
            exact hp2
          · rw [← hok2] at hq; cases hq
          · rw [← hok2] at hq; cases hq
        · rw [← hok2] at hf; cases hf
  cases parsed with
  | chunk c => exact main 0 (some c) none hok
  | chunkAndSkip s c => exact main s (some c) none hok
  | fileChunkHeader cl =>
    exact main 0 none (some (.parsingFileChunk false [] 0 cl)) hok

theorem afterEntry_chunks (p : PakParser) (pr : Bool) (parents : List Directory)
    (bp cl : Nat) (entry : FileEntry) (children : Nat) (n : Nat)
    (m : ParserStateMachine)
    (hok : afterEntry p pr parents bp cl entry children n = .ok m)
    (hp : p.chunks.all chunkKindOk = true) :
    (∀ q, (m = .loop q ∨ m = .cont q ∨ ∃ a b, m = .skip a b q) →
      q.chunks.all chunkKindOk = true)
    ∧ (∀ f, m = .done f → f.chunks.all chunkKindOk = true) := by
  unfold afterEntry at hok
  cases hsf : stepFileEntry pr parents entry children with
  | error e => rw [hsf] at hok; simp at hok
  | ok v2 =>
    obtain ⟨pr2, parents2⟩ := v2
    rw [hsf] at hok
    simp only at hok
    cases hns : PakParser.next_state
        { p with state := .parsingFileChunk pr2 parents2 bp cl } n none with
    | error e => rw [hns] at hok; simp at hok
    | ok p2 =>
      rw [hns] at hok
      simp only [Except.ok.injEq] at hok
      subst hok
      refine ⟨fun q hq => ?_, fun f hf => by cases hf⟩
      rcases hq with hq | hq | ⟨a, b, hq⟩ <;> cases hq
      exact next_state_chunks _ _ _ _ hns (by simpa using hp)

theorem parse_impl_chunks (p : PakParser) (i : List Nat)
    (m : ParserStateMachine) (r : List Nat)
    (hok : p.parse_impl i = .ok (m, r))
    (hp : p.chunks.all chunkKindOk = true) :
    (∀ q, (m = .loop q ∨ m = .cont q ∨ ∃ a b, m = .skip a b q) →
      q.chunks.all chunkKindOk = true)
    ∧ (∀ f, m = .done f → f.chunks.all chunkKindOk = true) := by
  unfold PakParser.parse_impl at hok
  cases hst : p.state with
  | done => rw [hst] at hok; simp at hok
  | parsingChunk =>
    rw [hst] at hok
    cases hpc : parse_chunk i with
    | error e =>
      rw [hpc] at hok
      cases e <;> simp at hok
      obtain ⟨h1, h2⟩ := hok
      subst h1
      refine ⟨fun q hq => ?_, fun f hf => by cases hf⟩
      rcases hq with hq | hq | ⟨a, b, hq⟩ <;> cases hq
      simpa using hp
    | ok v =>
      obtain ⟨parsed, rest⟩ := v
      rw [hpc] at hok
      simp only at hok
      cases hac : afterChunk p parsed (i.length - rest.length) with
      | error e => rw [hac] at hok; simp at hok
      | ok m2 =>
        rw [hac] at hok
        simp only [Except.ok.injEq, Prod.mk.injEq] at hok
        obtain ⟨h1, h2⟩ := hok
        subst h1
        exact afterChunk_chunks p parsed _ _ hac hp
  | parsingFileChunk pr parents bp cl =>
    rw [hst] at hok
    cases hpe : parse_file_entry i with
    | error e =>
      rw [hpe] at hok
      cases e <;> simp at hok
      obtain ⟨h1, h2⟩ := hok
      subst h1
      refine ⟨fun q hq => ?_, fun f hf => by cases hf⟩
      rcases hq with hq | hq | ⟨a, b, hq⟩ <;> cases hq
      simpa using hp
    | ok v =>
      obtain ⟨⟨entry, children⟩, rest⟩ := v
      rw [hpe] at hok
      simp only at hok
      cases hae : afterEntry p pr parents bp cl entry children
          (i.length - rest.length) with
      | error e => rw [hae] at hok; simp at hok
      | ok m2 =>
        rw [hae] at hok
        simp only [Except.ok.injEq, Prod.mk.injEq] at hok
        obtain ⟨h1, h2⟩ := hok
        subst h1
        exact afterEntry_chunks p pr parents bp cl entry children _ _ hae hp

theorem parseFuel_chunks (fuel : Nat) :
    ∀ (p : PakParser) (i : List Nat) (m : ParserStateMachine) (r : List Nat),
      PakParser.parseFuel fuel p i = some (.ok (m, r)) →
      p.chunks.all chunkKindOk = true →
      (∀ q, (m = .loop q ∨ m = .cont q ∨ ∃ a b, m = .skip a b q) →
        q.chunks.all chunkKindOk = true)
      ∧ (∀ f, m = .done f → f.chunks.all chunkKindOk = true) := by
  induction fuel with
  | zero =>
    intro p i m r h hp
    simp [PakParser.parseFuel] at h
  | succ fuel ih =>
    intro p i m r h hp
    rw [PakParser.parseFuel] at h
    by_cases hd : p.state.isDone
    · rw [if_pos hd] at h
      simp only [Option.some.injEq, Except.ok.injEq, Prod.mk.injEq] at h
      obtain ⟨h1, h2⟩ := h
      refine ⟨fun q hq => ?_, fun f hf => ?_⟩
      · rcases hq with hq | hq | ⟨a, b, hq⟩ <;> (rw [← h1] at hq; cases hq)
      · rw [← h1] at hf
        injection hf with h3
        rw [← h3]
        simpa [PakParser.complete] using hp
    · rw [if_neg hd] at h
      cases himpl : p.parse_impl i with
      | error e => rw [himpl] at h; simp at h
      | ok v =>
        obtain ⟨m2, rest⟩ := v
        rw [himpl] at h
        cases m2 with
        | loop q =>
          simp only at h
          have hq := (parse_impl_chunks p i _ _ himpl hp).1 q (Or.inl rfl)
          exact ih q rest m r h hq
        | cont q =>
          simp only [Option.some.injEq, Except.ok.injEq, Prod.mk.injEq] at h
          obtain ⟨h1, h2⟩ := h
          rw [← h1]
          exact parse_impl_chunks p i _ _ himpl hp
        | skip a b q =>
          simp only [Option.some.injEq, Except.ok.injEq, Prod.mk.injEq] at h
          obtain ⟨h1, h2⟩ := h
          rw [← h1]
          exact parse_impl_chunks p i _ _ himpl hp
        | done f =>
          simp only [Option.some.injEq, Except.ok.injEq, Prod.mk.injEq] at h
          obtain ⟨h1, h2⟩ := h
          rw [← h1]
          exact parse_impl_chunks p i _ _ himpl hp

theorem parse_chunks_inv (p : PakParser) (i : List Nat)
    (m : ParserStateMachine) (r : List Nat)
    (hok : p.parse i = .ok (m, r))
    (hp : p.chunks.all chunkKindOk = true) :
    (∀ q, (m = .loop q ∨ m = .cont q ∨ ∃ a b, m = .skip a b q) →
      q.chunks.all chunkKindOk = true)
    ∧ (∀ f, m = .done f → f.chunks.all chunkKindOk = true) := by
  unfold PakParser.parse at hok
  cases hfu : PakParser.parseFuel (i.length + 1) p i with
  | none => rw [hfu] at hok; simp at hok
  | some res =>
    rw [hfu] at hok
    simp only at hok
    subst hok
    exact parseFuel_chunks _ p i m r hfu hp

theorem oneShotFuel_chunks (fuel : Nat) :
    ∀ (p : PakParser) (d : List Nat) (f : PakFile) (rest : List Nat),
      oneShotFuel fuel p d = some (.ok (f, rest)) →
      p.chunks.all chunkKindOk = true →
      f.chunks.all chunkKindOk = true := by
  induction fuel with
  | zero =>
    intro p d f rest h hp
    simp [oneShotFuel] at h
  | succ fuel ih =>
    intro p d f rest h hp
    rw [oneShotFuel] at h
    cases hpr : p.parse d with
    | error e =>
      rw [hpr] at h
      cases e <;> simp at h
    | ok v =>
      obtain ⟨m, r⟩ := v
      rw [hpr] at h
      cases m with
      | done f2 =>
        simp only [Option.some.injEq, Except.ok.injEq, Prod.mk.injEq] at h
        obtain ⟨h1, h2⟩ := h
        rw [← h1]
        exact (parse_chunks_inv p d _ _ hpr hp).2 f2 rfl
      | skip a b q =>
        simp only at h
        by_cases hc : b ≤ r.length
        · rw [if_pos hc] at h
          have hq := (parse_chunks_inv p d _ _ hpr hp).1 q
            (Or.inr (Or.inr ⟨a, b, rfl⟩))
          exact ih q (r.drop b) f rest h hq
        · rw [if_neg hc] at h
          simp at h
      | loop q => simp at h
      | cont q => simp at h

/-! ## C1 -/

/-- C1 counterexample: `bytesHead` contains a `HEAD` chunk on the wire
(four-CC at offsets 12..16), yet the successfully parsed archive's chunk
list holds only the `Form` and `File` chunks — no `Head` chunk is ever
appended. -/
theorem c1_head_chunk_not_appended :
    oneShot bytesHead
      = some (.ok (⟨[Chunk.form 54 .PAC1, Chunk.file (FileEntry.folder [] [])]⟩, []))
    ∧ (bytesHead.drop 12).take 4 = [0x48, 0x45, 0x41, 0x44]
    ∧ ([Chunk.form 54 .PAC1,
        Chunk.file (FileEntry.folder [] [])].countP Chunk.is_head) = 0 :=
  ⟨rfl, rfl, rfl⟩

/-- C1 (amended): for every byte stream on which the one-shot parse
succeeds, every chunk of the resulting archive is a `Form` chunk or the
`File` chunk; decoded `Head` and `Data` chunks are dropped (their skip
directives advance the stream but nothing is appended). -/
theorem c1_chunks_only_form_and_file (data : List Nat) (f : PakFile)
    (rest : List Nat) (h : oneShot data = some (.ok (f, rest))) :
    f.chunks.all chunkKindOk = true :=
  oneShotFuel_chunks _ PakParser.new data f rest h rfl

/-- C1 witness: the amended theorem applied to the minimal archive. -/
theorem c1_chunks_only_form_and_file_witness :
    oneShot bytesMin = some (.ok (pakMin, []))
    ∧ pakMin.chunks.all chunkKindOk = true :=
  ⟨rfl, c1_chunks_only_form_and_file bytesMin pakMin [] rfl⟩

theorem afterChunk_shape (p : PakParser) (parsed : Parsed) (n : Nat)
    (m : ParserStateMachine) (hok : afterChunk p parsed n = .ok m) :
    (∃ q, m = .loop q) ∨ (∃ a b q, m = .skip a b q ∧ 1 ≤ b) := by
  unfold afterChunk at hok
  have main : ∀ (sk : Nat) (c? : Option Chunk) (st? : Option PakParserState),
      (match p.next_state (n + sk) st? with
        | Except.error e => (Except.error e : Except PErr ParserStateMachine)
        | Except.ok p1 =>
          let skip_from := p1.bytes_parsed - sk
          let p2 := pushFormMaybe p1 c? n
          if sk > 0 then Except.ok (ParserStateMachine.skip skip_from sk p2)
          else Except.ok (ParserStateMachine.loop p2)) = Except.ok m →
      (∃ q, m = .loop q) ∨ (∃ a b q, m = .skip a b q ∧ 1 ≤ b) := by
    intro sk c? st? hok2
    cases hns : p.next_state (n + sk) st? with
    | error e => rw [hns] at hok2; simp at hok2
    | ok p1 =>
      rw [hns] at hok2
      simp only at hok2
      by_cases hsk : sk > 0
      · rw [if_pos hsk] at hok2
        simp only [Except.ok.injEq] at hok2
        right
        exact ⟨_, _, _, hok2.symm, hsk⟩
      · rw [if_neg hsk] at hok2
        simp only [Except.ok.injEq] at hok2
        left
        exact ⟨_, hok2.symm⟩
  cases parsed with
  | chunk c => exact main 0 (some c) none hok
  | chunkAndSkip s c => exact main s (some c) none hok
  | fileChunkHeader cl =>
    exact main 0 none (some (.parsingFileChunk false [] 0 cl)) hok

theorem afterEntry_shape (p : PakParser) (pr : Bool) (parents : List Directory)
    (bp cl : Nat) (entry : FileEntry) (children : Nat) (n : Nat)
    (m : ParserStateMachine)
    (hok : afterEntry p pr parents bp cl entry children n = .ok m) :
    ∃ q, m = .loop q := by
  unfold afterEntry at hok
  cases hsf : stepFileEntry pr parents entry children with
  | error e => rw [hsf] at hok; simp at hok
  | ok v2 =>
    obtain ⟨pr2, parents2⟩ := v2
    rw [hsf] at hok
    simp only at hok
    cases hns : PakParser.next_state
        { p with state := .parsingFileChunk pr2 parents2 bp cl } n none with
    | error e => rw [hns] at hok; simp at hok
    | ok p2 =>
      rw [hns] at hok
      simp only [Except.ok.injEq] at hok
      exact ⟨p2, hok.symm⟩

theorem parse_impl_ext (p : PakParser) (i ext : List Nat) :
    (∀ m r, p.parse_impl i = .ok (m, r) → (∀ q, m ≠ .cont q) →
      p.parse_impl (i ++ ext) = .ok (m, r ++ ext))
    ∧ (∀ q r, p.parse_impl i = .ok (.cont q, r) → q = p ∧ r = i)
    ∧ (∀ e, p.parse_impl i = .error e → p.parse_impl (i ++ ext) = .error e) := by
  unfold PakParser.parse_impl
  cases hst : p.state with
  | done =>
    refine ⟨fun m r h _ => by simp at h, fun q r h => by simp at h,
      fun e h => ?_⟩
    simp only [Except.error.injEq] at h
    rw [h]
  | parsingChunk =>
    cases hpc : parse_chunk i with
    | error e =>
      cases e with
      | incomplete =>
        refine ⟨fun m r h hnc => ?_, fun q r h => ?_, fun e h => ?_⟩
        · have h2 : (Except.ok (ParserStateMachine.cont p, i) :
              Except PErr (ParserStateMachine × List Nat)) = Except.ok (m, r) := h
          simp only [Except.ok.injEq, Prod.mk.injEq] at h2
          exact absurd h2.1.symm (hnc p)
        · have h2 : (Except.ok (ParserStateMachine.cont p, i) :
              Except PErr (ParserStateMachine × List Nat))
              = Except.ok (.cont q, r) := h
          simp only [Except.ok.injEq, Prod.mk.injEq] at h2
          have h1 := h2.1
          injection h1 with hq
          exact ⟨hq.symm, h2.2.symm⟩
        · have h2 : (Except.ok (ParserStateMachine.cont p, i) :
              Except PErr (ParserStateMachine × List Nat)) = Except.error e := h
          simp at h2
      | backtrack =>
        rw [(mono_parse_chunk i ext).2 PErr.backtrack (by simp) hpc]
        exact ⟨fun m r h _ => by simp at h, fun q r h => by simp at h,
          fun e h => by simpa using h⟩
      | cut =>
        rw [(mono_parse_chunk i ext).2 PErr.cut (by simp) hpc]
        exact ⟨fun m r h _ => by simp at h, fun q r h => by simp at h,
          fun e h => by simpa using h⟩
      | panicked =>
        rw [(mono_parse_chunk i ext).2 PErr.panicked (by simp) hpc]
        exact ⟨fun m r h _ => by simp at h, fun q r h => by simp at h,
          fun e h => by simpa using h⟩
    | ok v =>
      obtain ⟨parsed, rest⟩ := v
      rw [(mono_parse_chunk i ext).1 parsed rest hpc]
      have hlen : (i ++ ext).length - (rest ++ ext).length
          = i.length - rest.length := by
        simp only [List.length_append]
        omega
      refine ⟨fun m r h hnc => ?_, fun q r h => ?_, fun e2 h => ?_⟩
      · have h2 : (match afterChunk p parsed (i.length - rest.length) with
            | Except.error e => (Except.error e :
                Except PErr (ParserStateMachine × List Nat))
            | Except.ok m2 => Except.ok (m2, rest)) = Except.ok (m, r) := h
        show (match afterChunk p parsed
              ((i ++ ext).length - (rest ++ ext).length) with
            | Except.error e => (Except.error e :
                Except PErr (ParserStateMachine × List Nat))
            | Except.ok m2 => Except.ok (m2, rest ++ ext))
          = Except.ok (m, r ++ ext)
        rw [hlen]
        cases hac : afterChunk p parsed (i.length - rest.length) with
        | error e => rw [hac] at h2; simp at h2
        | ok m2 =>
          rw [hac] at h2
          have h3 : (Except.ok (m2, rest) :
              Except PErr (ParserStateMachine × List Nat)) = Except.ok (m, r) := h2
          simp only [Except.ok.injEq, Prod.mk.injEq] at h3
          show (Except.ok (m2, rest ++ ext) :
              Except PErr (ParserStateMachine × List Nat)) = Except.ok (m, r ++ ext)
          rw [h3.1, h3.2]
      · have h2 : (match afterChunk p parsed (i.length - rest.length) with
            | Except.error e => (Except.error e :
                Except PErr (ParserStateMachine × List Nat))
            | Except.ok m2 => Except.ok (m2, rest))
            = Except.ok (.cont q, r) := h
        cases hac : afterChunk p parsed (i.length - rest.length) with
        | error e => rw [hac] at h2; simp at h2
        | ok m2 =>
          rw [hac] at h2
          have h3 : (Except.ok (m2, rest) :
              Except PErr (ParserStateMachine × List Nat))
              = Except.ok (.cont q, r) := h2
          simp only [Except.ok.injEq, Prod.mk.injEq] at h3
          rcases afterChunk_shape p parsed _ m2 hac with ⟨q2, hq2⟩ | ⟨a, b, q2, hq2, _⟩
            <;> rw [hq2] at h3 <;> cases h3.1
      · have h2 : (match afterChunk p parsed (i.length - rest.length) with
            | Except.error e => (Except.error e :
                Except PErr (ParserStateMachine × List Nat))
            | Except.ok m2 => Except.ok (m2, rest)) = Except.error e2 := h
        show (match afterChunk p parsed
              ((i ++ ext).length - (rest ++ ext).length) with
            | Except.error e => (Except.error e :
                Except PErr (ParserStateMachine × List Nat))
            | Except.ok m2 => Except.ok (m2, rest ++ ext))
          = Except.error e2
        rw [hlen]
        cases hac : afterChunk p parsed (i.length - rest.length) with
        | error e => rw [hac] at h2; exact h2
        | ok m2 => rw [hac] at h2; simp at h2
  | parsingFileChunk pr parents bp cl =>
    cases hpe : parse_file_entry i with
    | error e =>
      cases e with
      | incomplete =>
        refine ⟨fun m r h hnc => ?_, fun q r h => ?_, fun e h => ?_⟩
        · have h2 : (Except.ok (ParserStateMachine.cont p, i) :
              Except PErr (ParserStateMachine × List Nat)) = Except.ok (m, r) := h
          simp only [Except.ok.injEq, Prod.mk.injEq] at h2
          exact absurd h2.1.symm (hnc p)
        · have h2 : (Except.ok (ParserStateMachine.cont p, i) :
              Except PErr (ParserStateMachine × List Nat))
              = Except.ok (.cont q, r) := h
          simp only [Except.ok.injEq, Prod.mk.injEq] at h2
          have h1 := h2.1
          injection h1 with hq
          exact ⟨hq.symm, h2.2.symm⟩
        · have h2 : (Except.ok (ParserStateMachine.cont p, i) :
              Except PErr (ParserStateMachine × List Nat)) = Except.error e := h
          simp at h2
      | backtrack =>
        rw [(mono_parse_file_entry i ext).2 PErr.backtrack (by simp) hpe]
        exact ⟨fun m r h _ => by simp at h, fun q r h => by simp at h,
          fun e h => by simpa using h⟩
      | cut =>
        rw [(mono_parse_file_entry i ext).2 PErr.cut (by simp) hpe]
        exact ⟨fun m r h _ => by simp at h, fun q r h => by simp at h,
          fun e h => by simpa using h⟩
      | panicked =>
        rw [(mono_parse_file_entry i ext).2 PErr.panicked (by simp) hpe]
        exact ⟨fun m r h _ => by simp at h, fun q r h => by simp at h,
          fun e h => by simpa using h⟩
    | ok v =>
      obtain ⟨⟨entry, children⟩, rest⟩ := v
      rw [(mono_parse_file_entry i ext).1 (entry, children) rest hpe]
      have hlen : (i ++ ext).length - (rest ++ ext).length
          = i.length - rest.length := by
        simp only [List.length_append]
        omega
      refine ⟨fun m r h hnc => ?_, fun q r h => ?_, fun e2 h => ?_⟩
      · have h2 : (match afterEntry p pr parents bp cl entry children
              (i.length - rest.length) with
            | Except.error e => (Except.error e :
                Except PErr (ParserStateMachine × List Nat))
            | Except.ok m2 => Except.ok (m2, rest)) = Except.ok (m, r) := h
        show (match afterEntry p pr parents bp cl entry children
              ((i ++ ext).length - (rest ++ ext).length) with
            | Except.error e => (Except.error e :
                Except PErr (ParserStateMachine × List Nat))
            | Except.ok m2 => Except.ok (m2, rest ++ ext))
          = Except.ok (m, r ++ ext)
        rw [hlen]
        cases hae : afterEntry p pr parents bp cl entry children
            (i.length - rest.length) with
        | error e => rw [hae] at h2; simp at h2
        | ok m2 =>
          rw [hae] at h2
          have h3 : (Except.ok (m2, rest) :
              Except PErr (ParserStateMachine × List Nat)) = Except.ok (m, r) := h2
          simp only [Except.ok.injEq, Prod.mk.injEq] at h3
          show (Except.ok (m2, rest ++ ext) :
              Except PErr (ParserStateMachine × List Nat)) = Except.ok (m, r ++ ext)
          rw [h3.1, h3.2]
      · have h2 : (match afterEntry p pr parents bp cl entry children
              (i.length - rest.length) with
            | Except.error e => (Except.error e :
                Except PErr (ParserStateMachine × List Nat))
            | Except.ok m2 => Except.ok (m2, rest))
            = Except.ok (.cont q, r) := h
        cases hae : afterEntry p pr parents bp cl entry children
            (i.length - rest.length) with
        | error e => rw [hae] at h2; simp at h2
        | ok m2 =>
          rw [hae] at h2
          have h3 : (Except.ok (m2, rest) :
              Except PErr (ParserStateMachine × List Nat))
              = Except.ok (.cont q, r) := h2
          simp only [Except.ok.injEq, Prod.mk.injEq] at h3
          obtain ⟨q2, hq2⟩ := afterEntry_shape p pr parents bp cl entry
            children _ m2 hae
          rw [hq2] at h3
          cases h3.1
      · have h2 : (match afterEntry p pr parents bp cl entry children
              (i.length - rest.length) with
            | Except.error e => (Except.error e :
                Except PErr (ParserStateMachine × List Nat))
            | Except.ok m2 => Except.ok (m2, rest)) = Except.error e2 := h
        show (match afterEntry p pr parents bp cl entry children
              ((i ++ ext).length - (rest ++ ext).length) with
            | Except.error e => (Except.error e :
                Except PErr (ParserStateMachine × List Nat))
            | Except.ok m2 => Except.ok (m2, rest ++ ext))
          = Except.error e2
        rw [hlen]
        cases hae : afterEntry p pr parents bp cl entry children
            (i.length - rest.length) with
        | error e => rw [hae] at h2; exact h2
        | ok m2 => rw [hae] at h2; simp at h2

theorem parse_impl_consumed (p : PakParser) (i : List Nat)
    (m : ParserStateMachine) (r : List Nat)
    (hok : p.parse_impl i = .ok (m, r)) (hnc : ∀ q, m ≠ .cont q) :
    r.length < i.length := by
  unfold PakParser.parse_impl at hok
  cases hst : p.state with
  | done => rw [hst] at hok; simp at hok
  | parsingChunk =>
    rw [hst] at hok
    cases hpc : parse_chunk i with
    | error e =>
      rw [hpc] at hok
      cases e with
      | incomplete =>
        have h2 : (Except.ok (ParserStateMachine.cont p, i) :
            Except PErr (ParserStateMachine × List Nat)) = Except.ok (m, r) := hok
        simp only [Except.ok.injEq, Prod.mk.injEq] at h2
        exact absurd h2.1.symm (hnc p)
      | backtrack => simp at hok
      | cut => simp at hok
      | panicked => simp at hok
    | ok v =>
      obtain ⟨parsed, rest⟩ := v
      rw [hpc] at hok
      have h2 : (match afterChunk p parsed (i.length - rest.length) with
          | Except.error e => (Except.error e :
              Except PErr (ParserStateMachine × List Nat))
          | Except.ok m2 => Except.ok (m2, rest)) = Except.ok (m, r) := hok
      cases hac : afterChunk p parsed (i.length - rest.length) with
      | error e => rw [hac] at h2; simp at h2
      | ok m2 =>
        rw [hac] at h2
        have h3 : (Except.ok (m2, rest) :
            Except PErr (ParserStateMachine × List Nat)) = Except.ok (m, r) := h2
        simp only [Except.ok.injEq, Prod.mk.injEq] at h3
        rw [← h3.2]
        exact consuming_parse_chunk i parsed rest hpc
  | parsingFileChunk pr parents bp cl =>
    rw [hst] at hok
    cases hpe : parse_file_entry i with
    | error e =>
      rw [hpe] at hok
      cases e with
      | incomplete =>
        have h2 : (Except.ok (ParserStateMachine.cont p, i) :
            Except PErr (ParserStateMachine × List Nat)) = Except.ok (m, r) := hok
        simp only [Except.ok.injEq, Prod.mk.injEq] at h2
        exact absurd h2.1.symm (hnc p)
      | backtrack => simp at hok
      | cut => simp at hok
      | panicked => simp at hok
    | ok v =>
      obtain ⟨⟨entry, children⟩, rest⟩ := v
      rw [hpe] at hok
      have h2 : (match afterEntry p pr parents bp cl entry children
            (i.length - rest.length) with
          | Except.error e => (Except.error e :
              Except PErr (ParserStateMachine × List Nat))
          | Except.ok m2 => Except.ok (m2, rest)) = Except.ok (m, r) := hok
      cases hae : afterEntry p pr parents bp cl entry children
          (i.length - rest.length) with
      | error e => rw [hae] at h2; simp at h2
      | ok m2 =>
        rw [hae] at h2
        have h3 : (Except.ok (m2, rest) :
            Except PErr (ParserStateMachine × List Nat)) = Except.ok (m, r) := h2
        simp only [Except.ok.injEq, Prod.mk.injEq] at h3
        rw [← h3.2]
        exact consuming_parse_file_entry i (entry, children) rest hpe

theorem parse_impl_skip_pos (p : PakParser) (i : List Nat)
    (a b : Nat) (q : PakParser) (r : List Nat)
    (hok : p.parse_impl i = .ok (.skip a b q, r)) : 1 ≤ b := by
  unfold PakParser.parse_impl at hok
  cases hst : p.state with
  | done => rw [hst] at hok; simp at hok
  | parsingChunk =>
    rw [hst] at hok
    cases hpc : parse_chunk i with
    | error e =>
      rw [hpc] at hok
      cases e with
      | incomplete =>
        have h2 : (Except.ok (ParserStateMachine.cont p, i) :
            Except PErr (ParserStateMachine × List Nat))
            = Except.ok (.skip a b q, r) := hok
        simp only [Except.ok.injEq, Prod.mk.injEq] at h2
        cases h2.1
      | backtrack => simp at hok
      | cut => simp at hok
      | panicked => simp at hok
    | ok v =>
      obtain ⟨parsed, rest⟩ := v
      rw [hpc] at hok
      have h2 : (match afterChunk p parsed (i.length - rest.length) with
          | Except.error e => (Except.error e :
              Except PErr (ParserStateMachine × List Nat))
          | Except.ok m2 => Except.ok (m2, rest))
          = Except.ok (.skip a b q, r) := hok
      cases hac : afterChunk p parsed (i.length - rest.length) with
      | error e => rw [hac] at h2; simp at h2
      | ok m2 =>
        rw [hac] at h2
        have h3 : (Except.ok (m2, rest) :
            Except PErr (ParserStateMachine × List Nat))
            = Except.ok (.skip a b q, r) := h2
        simp only [Except.ok.injEq, Prod.mk.injEq] at h3
        rcases afterChunk_shape p parsed _ m2 hac with ⟨q2, hq2⟩ | ⟨a2, b2, q2, hq2, hb2⟩
        · rw [hq2] at h3; cases h3.1
        · rw [hq2] at h3
          have h4 := h3.1
          injection h4 with ha hb hq
          omega
  | parsingFileChunk pr parents bp cl =>
    rw [hst] at hok
    cases hpe : parse_file_entry i with
    | error e =>
      rw [hpe] at hok
      cases e with
      | incomplete =>
        have h2 : (Except.ok (ParserStateMachine.cont p, i) :
            Except PErr (ParserStateMachine × List Nat))
            = Except.ok (.skip a b q, r) := hok
        simp only [Except.ok.injEq, Prod.mk.injEq] at h2
        cases h2.1
      | backtrack => simp at hok
      | cut => simp at hok
      | panicked => simp at hok
    | ok v =>
      obtain ⟨⟨entry, children⟩, rest⟩ := v
      rw [hpe] at hok
      have h2 : (match afterEntry p pr parents bp cl entry children
            (i.length - rest.length) with
          | Except.error e => (Except.error e :
              Except PErr (ParserStateMachine × List Nat))
          | Except.ok m2 => Except.ok (m2, rest))
          = Except.ok (.skip a b q, r) := hok
      cases hae : afterEntry p pr parents bp cl entry children
          (i.length - rest.length) with
      | error e => rw [hae] at h2; simp at h2
      | ok m2 =>
        rw [hae] at h2
        have h3 : (Except.ok (m2, rest) :
            Except PErr (ParserStateMachine × List Nat))
            = Except.ok (.skip a b q, r) := h2
        simp only [Except.ok.injEq, Prod.mk.injEq] at h3
        obtain ⟨q2, hq2⟩ := afterEntry_shape p pr parents bp cl entry
          children _ m2 hae
        rw [hq2] at h3
        cases h3.1

theorem parseFuel_fuel_mono :
    ∀ (f f' : Nat) (p : PakParser) (i : List Nat) res, f ≤ f' →
      PakParser.parseFuel f p i = some res →
      PakParser.parseFuel f' p i = some res := by
  intro f
  induction f with
  | zero =>
    intro f' p i res _ h
    simp [PakParser.parseFuel] at h
  | succ f ih =>
    intro f' p i res hle h
    match f' with
    | 0 => omega
    | f2 + 1 =>
      rw [PakParser.parseFuel] at h ⊢
      by_cases hd : p.state.isDone
      · rw [if_pos hd] at h ⊢
        exact h
      · rw [if_neg hd] at h ⊢
        cases himpl : p.parse_impl i with
        | error e => rw [himpl] at h; exact h
        | ok v =>
          obtain ⟨m, rest⟩ := v
          rw [himpl] at h
          cases m with
          | loop q => exact ih f2 q rest res (by omega) h
          | cont q => exact h
          | skip a b q => exact h
          | done f3 => exact h

theorem parseFuel_isSome :
    ∀ (f : Nat) (p : PakParser) (i : List Nat), i.length < f →
      (PakParser.parseFuel f p i).isSome := by
  intro f
  induction f with
  | zero => intro p i h; omega
  | succ f ih =>
    intro p i hlen
    rw [PakParser.parseFuel]
    by_cases hd : p.state.isDone
    · rw [if_pos hd]
      rfl
    · rw [if_neg hd]
      cases himpl : p.parse_impl i with
      | error e => rfl
      | ok v =>
        obtain ⟨m, rest⟩ := v
        cases m with
        | loop q =>
          have hcons := parse_impl_consumed p i _ rest himpl (by intro q2 h; cases h)
          exact ih q rest (by omega)
        | cont q => rfl
        | skip a b q => rfl
        | done f3 => rfl

theorem parse_done_eq (p : PakParser) (i : List Nat)
    (hd : p.state.isDone = true) :
    p.parse i = .ok (.done p.complete, i) := by
  unfold PakParser.parse
  rw [PakParser.parseFuel, if_pos hd]

theorem parse_impl_error_eq (p : PakParser) (i : List Nat) (e : PErr)
    (hd : ¬ p.state.isDone = true) (h : p.parse_impl i = .error e) :
    p.parse i = .error e := by
  unfold PakParser.parse
  rw [PakParser.parseFuel, if_neg hd, h]

theorem parse_impl_other_eq (p : PakParser) (i : List Nat)
    (m : ParserStateMachine) (rest : List Nat)
    (hd : ¬ p.state.isDone = true) (h : p.parse_impl i = .ok (m, rest))
    (hm : ∀ q, m ≠ .loop q) : p.parse i = .ok (m, rest) := by
  unfold PakParser.parse
  rw [PakParser.parseFuel, if_neg hd, h]
  cases m with
  | loop q => exact absurd rfl (hm q)
  | cont q => rfl
  | skip a b q => rfl
  | done f => rfl

theorem parse_impl_loop_eq (p : PakParser) (i : List Nat)
    (q : PakParser) (rest : List Nat)
    (hd : ¬ p.state.isDone = true) (h : p.parse_impl i = .ok (.loop q, rest)) :
    p.parse i = q.parse rest := by
  have hcons := parse_impl_consumed p i _ rest h (by intro q2 hq; cases hq)
  have h1 : (PakParser.parseFuel (rest.length + 1) q rest).isSome :=
    parseFuel_isSome _ q rest (by omega)
  unfold PakParser.parse
  rw [PakParser.parseFuel, if_neg hd, h]
  show (match PakParser.parseFuel i.length q rest with
    | some r => r
    | none => Except.error PErr.panicked) =
    (match PakParser.parseFuel (rest.length + 1) q rest with
    | some r => r
    | none => Except.error PErr.panicked)
  cases h2 : PakParser.parseFuel (rest.length + 1) q rest with
  | none => simp [h2] at h1
  | some res =>
    rw [parseFuel_fuel_mono (rest.length + 1) i.length q rest res
      (by omega) h2]

theorem parseFuel_no_loop :
    ∀ (f : Nat) (p : PakParser) (i : List Nat) (m : ParserStateMachine)
      (r : List Nat), PakParser.parseFuel f p i = some (.ok (m, r)) →
      ∀ q, m ≠ .loop q := by
  intro f
  induction f with
  | zero => intro p i m r h; simp [PakParser.parseFuel] at h
  | succ f ih =>
    intro p i m r h
    rw [PakParser.parseFuel] at h
    by_cases hd : p.state.isDone
    · rw [if_pos hd] at h
      simp only [Option.some.injEq, Except.ok.injEq, Prod.mk.injEq] at h
      rw [← h.1]
      intro q hq
      cases hq
    · rw [if_neg hd] at h
      cases himpl : p.parse_impl i with
      | error e => rw [himpl] at h; simp at h
      | ok v =>
        obtain ⟨m2, rest⟩ := v
        rw [himpl] at h
        cases m2 with
        | loop q2 => exact ih q2 rest m r h
        | cont q2 =>
          simp only [Option.some.injEq, Except.ok.injEq, Prod.mk.injEq] at h
          rw [← h.1]
          intro q hq
          cases hq
        | skip a b q2 =>
          simp only [Option.some.injEq, Except.ok.injEq, Prod.mk.injEq] at h
          rw [← h.1]
          intro q hq
          cases hq
        | done f3 =>
          simp only [Option.some.injEq, Except.ok.injEq, Prod.mk.injEq] at h
          rw [← h.1]
          intro q hq
          cases hq

theorem parseFuel_rest_le :
    ∀ (f : Nat) (p : PakParser) (i : List Nat) (m : ParserStateMachine)
      (r : List Nat), PakParser.parseFuel f p i = some (.ok (m, r)) →
      r.length ≤ i.length := by
  intro f
  induction f with
  | zero => intro p i m r h; simp [PakParser.parseFuel] at h
  | succ f ih =>
    intro p i m r h
    rw [PakParser.parseFuel] at h
    by_cases hd : p.state.isDone
    · rw [if_pos hd] at h
      simp only [Option.some.injEq, Except.ok.injEq, Prod.mk.injEq] at h
      rw [← h.2]
    · rw [if_neg hd] at h
      cases himpl : p.parse_impl i with
      | error e => rw [himpl] at h; simp at h
      | ok v =>
        obtain ⟨m2, rest⟩ := v
        rw [himpl] at h
        cases m2 with
        | loop q2 =>
          have hcons := parse_impl_consumed p i _ rest himpl
            (by intro q hq; cases hq)
          have := ih q2 rest m r h
          omega
        | cont q2 =>
          simp only [Option.some.injEq, Except.ok.injEq, Prod.mk.injEq] at h
          have h2 : rest = r := h.2
          have h3 : (ParserStateMachine.cont q2) = m := h.1
          rw [← h3] at h
          have : rest = i := by
            have := (parse_impl_ext p i []).2.1 q2 rest (by simpa using himpl)
            exact this.2
          rw [← h2, this]
        | skip a b q2 =>
          simp only [Option.some.injEq, Except.ok.injEq, Prod.mk.injEq] at h
          have hcons := parse_impl_consumed p i _ rest himpl
            (by intro q hq; cases hq)
          rw [← h.2]
          omega
        | done f3 =>
          simp only [Option.some.injEq, Except.ok.injEq, Prod.mk.injEq] at h
          have hcons := parse_impl_consumed p i _ rest himpl
            (by intro q hq; cases hq)
          rw [← h.2]
          omega

theorem parse_rest_le (p : PakParser) (i : List Nat)
    (m : ParserStateMachine) (r : List Nat)
    (h : p.parse i = .ok (m, r)) : r.length ≤ i.length := by
  unfold PakParser.parse at h
  cases hfu : PakParser.parseFuel (i.length + 1) p i with
  | none => rw [hfu] at h; simp at h
  | some res =>
    rw [hfu] at h
    have h2 : res = Except.ok (m, r) := h
    rw [h2] at hfu
    exact parseFuel_rest_le _ p i m r hfu

theorem parseFuel_skip_pos :
    ∀ (f : Nat) (p : PakParser) (i : List Nat) (a b : Nat) (q : PakParser)
      (r : List Nat), PakParser.parseFuel f p i = some (.ok (.skip a b q, r)) →
      1 ≤ b := by
  intro f
  induction f with
  | zero => intro p i a b q r h; simp [PakParser.parseFuel] at h
  | succ f ih =>
    intro p i a b q r h
    rw [PakParser.parseFuel] at h
    by_cases hd : p.state.isDone
    · rw [if_pos hd] at h
      simp at h
    · rw [if_neg hd] at h
      cases himpl : p.parse_impl i with
      | error e => rw [himpl] at h; simp at h
      | ok v =>
        obtain ⟨m2, rest⟩ := v
        rw [himpl] at h
        cases m2 with
        | loop q2 => exact ih q2 rest a b q r h
        | cont q2 => simp at h
        | skip a2 b2 q2 =>
          simp only [Option.some.injEq, Except.ok.injEq, Prod.mk.injEq] at h
          have h1 := h.1
          injection h1 with ha hb hq
          rw [← hb]
          exact parse_impl_skip_pos p i a2 b2 q2 rest himpl
        | done f3 => simp at h

theorem parse_skip_pos (p : PakParser) (i : List Nat) (a b : Nat)
    (q : PakParser) (r : List Nat)
    (h : p.parse i = .ok (.skip a b q, r)) : 1 ≤ b := by
  unfold PakParser.parse at h
  cases hfu : PakParser.parseFuel (i.length + 1) p i with
  | none => rw [hfu] at h; simp at h
  | some res =>
    rw [hfu] at h
    have h2 : res = Except.ok (ParserStateMachine.skip a b q, r) := h
    rw [h2] at hfu
    exact parseFuel_skip_pos _ p i a b q r hfu

theorem parse_ext :
    ∀ (n : Nat) (p : PakParser) (i ext : List Nat), i.length ≤ n →
      (∀ f r, p.parse i = .ok (.done f, r) →
        p.parse (i ++ ext) = .ok (.done f, r ++ ext))
      ∧ (∀ a b q r, p.parse i = .ok (.skip a b q, r) →
        p.parse (i ++ ext) = .ok (.skip a b q, r ++ ext))
      ∧ (∀ q r, p.parse i = .ok (.cont q, r) →
        p.parse (i ++ ext) = q.parse (r ++ ext))
      ∧ (∀ e, p.parse i = .error e → p.parse (i ++ ext) = .error e) := by
  intro n
  induction n using Nat.strong_induction_on with
  | _ n ih =>
    intro p i ext hlen
    by_cases hd : p.state.isDone = true
    · have e1 := parse_done_eq p i hd
      have e2 := parse_done_eq p (i ++ ext) hd
      refine ⟨?_, ?_, ?_, ?_⟩
      · intro f r h
        rw [e1] at h
        simp only [Except.ok.injEq, Prod.mk.injEq] at h
        obtain ⟨h1, h2⟩ := h
        injection h1 with h3
        rw [e2, h3, h2]
      · intro a b q r h
        rw [e1] at h
        simp at h
      · intro q r h
        rw [e1] at h
        simp at h
      · intro e h
        rw [e1] at h
        simp at h
    · cases himpl : p.parse_impl i with
      | error e0 =>
        have e1 := parse_impl_error_eq p i e0 hd himpl
        have himpl2 := (parse_impl_ext p i ext).2.2 e0 himpl
        have e2 := parse_impl_error_eq p (i ++ ext) e0 hd himpl2
        refine ⟨?_, ?_, ?_, ?_⟩
        · intro f r h
          rw [e1] at h
          simp at h
        · intro a b q r h
          rw [e1] at h
          simp at h
        · intro q r h
          rw [e1] at h
          simp at h
        · intro e h
          rw [e1] at h
          injection h with h1
          rw [e2, h1]
      | ok v =>
        obtain ⟨m, rest⟩ := v
        cases m with
        | cont q0 =>
          obtain ⟨hq0, hrest⟩ := (parse_impl_ext p i ext).2.1 q0 rest himpl
          rw [hq0, hrest] at himpl
          have e1 := parse_impl_other_eq p i _ i hd himpl
            (by intro q hq; cases hq)
          refine ⟨?_, ?_, ?_, ?_⟩
          · intro f r h
            rw [e1] at h
            simp at h
          · intro a b q r h
            rw [e1] at h
            simp at h
          · intro q r h
            rw [e1] at h
            simp only [Except.ok.injEq, Prod.mk.injEq] at h
            obtain ⟨h1, h2⟩ := h
            injection h1 with h3
            rw [← h3, ← h2]
          · intro e h
            rw [e1] at h
            simp at h
        | loop q0 =>
          have hcons := parse_impl_consumed p i _ rest himpl
            (by intro q hq; cases hq)
          have e1 := parse_impl_loop_eq p i q0 rest hd himpl
          have himpl2 := (parse_impl_ext p i ext).1 _ rest himpl
            (by intro q hq; cases hq)
          have e2 := parse_impl_loop_eq p (i ++ ext) q0 (rest ++ ext) hd himpl2
          obtain ⟨IH1, IH2, IH3, IH4⟩ :=
            ih rest.length (by omega) q0 rest ext (Nat.le_refl _)
          refine ⟨?_, ?_, ?_, ?_⟩
          · intro f r h
            rw [e1] at h
            rw [e2]
            exact IH1 f r h
          · intro a b q r h
            rw [e1] at h
            rw [e2]
            exact IH2 a b q r h
          · intro q r h
            rw [e1] at h
            rw [e2]
            exact IH3 q r h
          · intro e h
            rw [e1] at h
            rw [e2]
            exact IH4 e h
        | skip a0 b0 q0 =>
          have e1 := parse_impl_other_eq p i _ rest hd himpl
            (by intro q hq; cases hq)
          have himpl2 := (parse_impl_ext p i ext).1 _ rest himpl
            (by intro q hq; cases hq)
          have e2 := parse_impl_other_eq p (i ++ ext) _ (rest ++ ext) hd himpl2
            (by intro q hq; cases hq)
          refine ⟨?_, ?_, ?_, ?_⟩
          · intro f r h
            rw [e1] at h
            simp at h
          · intro a b q r h
            rw [e1] at h
            simp only [Except.ok.injEq, Prod.mk.injEq] at h
            obtain ⟨h1, h2⟩ := h
            injection h1 with ha hb hq
            rw [e2, ha, hb, hq, h2]
          · intro q r h
            rw [e1] at h
            simp at h
          · intro e h
            rw [e1] at h
            simp at h
        | done f0 =>
          have e1 := parse_impl_other_eq p i _ rest hd himpl
            (by intro q hq; cases hq)
          have himpl2 := (parse_impl_ext p i ext).1 _ rest himpl
            (by intro q hq; cases hq)
          have e2 := parse_impl_other_eq p (i ++ ext) _ (rest ++ ext) hd himpl2
            (by intro q hq; cases hq)
          refine ⟨?_, ?_, ?_, ?_⟩
          · intro f r h
            rw [e1] at h
            simp only [Except.ok.injEq, Prod.mk.injEq] at h
            obtain ⟨h1, h2⟩ := h
            injection h1 with hf
            rw [e2, hf, h2]
          · intro a b q r h
            rw [e1] at h
            simp at h
          · intro q r h
            rw [e1] at h
            simp at h
          · intro e h
            rw [e1] at h
            simp at h

theorem parse_no_loop (p : PakParser) (i : List Nat) (m : ParserStateMachine)
    (r : List Nat) (h : p.parse i = .ok (m, r)) : ∀ q, m ≠ .loop q := by
  unfold PakParser.parse at h
  cases hfu : PakParser.parseFuel (i.length + 1) p i with
  | none => rw [hfu] at h; simp at h
  | some res =>
    rw [hfu] at h
    have h2 : res = Except.ok (m, r) := h
    rw [h2] at hfu
    exact parseFuel_no_loop _ p i m r hfu

theorem oneShotFuel_fuel_mono :
    ∀ (f f' : Nat) (p : PakParser) (d : List Nat) res, f ≤ f' →
      oneShotFuel f p d = some res → oneShotFuel f' p d = some res := by
  intro f
  induction f with
  | zero =>
    intro f' p d res _ h
    simp [oneShotFuel] at h
  | succ f ih =>
    intro f' p d res hle h
    match f' with
    | 0 => omega
    | f2 + 1 =>
      rw [oneShotFuel] at h ⊢
      cases hp : p.parse d with
      | error e =>
        rw [hp] at h
        cases e with
        | incomplete => exact h
        | backtrack => exact h
        | cut => exact h
        | panicked => exact h
      | ok v =>
        obtain ⟨m, rest⟩ := v
        rw [hp] at h
        cases m with
        | done f3 => exact h
        | cont q => exact h
        | loop q => exact h
        | skip a c q =>
          have h2 : (if c ≤ rest.length then oneShotFuel f q (rest.drop c)
            else some (Except.error PErr.panicked)) = some res := h
          show (if c ≤ rest.length then oneShotFuel f2 q (rest.drop c)
            else some (Except.error PErr.panicked)) = some res
          by_cases hc : c ≤ rest.length
          · rw [if_pos hc] at h2 ⊢
            exact ih f2 q (rest.drop c) res (by omega) h2
          · rw [if_neg hc] at h2 ⊢
            exact h2

theorem oneShotFuel_isSome :
    ∀ (f : Nat) (p : PakParser) (d : List Nat), d.length < f →
      (oneShotFuel f p d).isSome := by
  intro f
  induction f with
  | zero => intro p d h; omega
  | succ f ih =>
    intro p d hlen
    rw [oneShotFuel]
    cases hp : p.parse d with
    | error e => cases e <;> rfl
    | ok v =>
      obtain ⟨m, rest⟩ := v
      cases m with
      | done f3 => rfl
      | cont q => rfl
      | loop q => rfl
      | skip a c q =>
        show (if c ≤ rest.length then oneShotFuel f q (rest.drop c)
          else some (Except.error PErr.panicked)).isSome = true
        by_cases hc : c ≤ rest.length
        · rw [if_pos hc]
          have hb := parse_skip_pos p d a c q rest hp
          have hr := parse_rest_le p d _ rest hp
          exact ih q (rest.drop c) (by rw [List.length_drop]; omega)
        · rw [if_neg hc]
          rfl

theorem oneShotFuel_run_eq (q : PakParser) (d2 : List Nat) (g : Nat)
    (hg : d2.length + 1 ≤ g) :
    oneShotFuel g q d2 = oneShotFuel (d2.length + 1) q d2 := by
  have h1 : (oneShotFuel (d2.length + 1) q d2).isSome :=
    oneShotFuel_isSome _ q d2 (by omega)
  cases h2 : oneShotFuel (d2.length + 1) q d2 with
  | none => rw [h2] at h1; simp at h1
  | some res => exact oneShotFuel_fuel_mono _ g q d2 res hg h2

theorem oneShotRun_done (p : PakParser) (d : List Nat) (f : PakFile)
    (r : List Nat) (h : p.parse d = .ok (.done f, r)) :
    oneShotRun p d = some (.ok (f, r)) := by
  unfold oneShotRun
  rw [oneShotFuel, h]

theorem oneShotRun_cont (p : PakParser) (d : List Nat) (q : PakParser)
    (r : List Nat) (h : p.parse d = .ok (.cont q, r)) :
    oneShotRun p d = some (.error .panicked) := by
  unfold oneShotRun
  rw [oneShotFuel, h]

theorem oneShotRun_cut (p : PakParser) (d : List Nat)
    (h : p.parse d = .error .cut) :
    oneShotRun p d = some (.error .cut) := by
  unfold oneShotRun
  rw [oneShotFuel, h]

theorem oneShotRun_err (p : PakParser) (d : List Nat) (e : PErr)
    (h : p.parse d = .error e) (he : e ≠ .cut) :
    oneShotRun p d = some (.error .panicked) := by
  unfold oneShotRun
  rw [oneShotFuel, h]
  cases e with
  | incomplete => rfl
  | backtrack => rfl
  | cut => exact absurd rfl he
  | panicked => rfl

theorem oneShotRun_skip (p : PakParser) (d : List Nat) (a c : Nat)
    (q : PakParser) (r : List Nat)
    (h : p.parse d = .ok (.skip a c q, r)) (hc : c ≤ r.length) :
    oneShotRun p d = oneShotRun q (r.drop c) := by
  have hb := parse_skip_pos p d a c q r h
  have hr := parse_rest_le p d _ r h
  unfold oneShotRun
  rw [oneShotFuel, h]
  show (if c ≤ r.length then oneShotFuel d.length q (r.drop c)
    else some (Except.error PErr.panicked)) =
    oneShotFuel ((r.drop c).length + 1) q (r.drop c)
  rw [if_pos hc]
  exact oneShotFuel_run_eq q (r.drop c) d.length (by rw [List.length_drop]; omega)

theorem oneShotRun_skip_over (p : PakParser) (d : List Nat) (a c : Nat)
    (q : PakParser) (r : List Nat)
    (h : p.parse d = .ok (.skip a c q, r)) (hc : ¬ c ≤ r.length) :
    oneShotRun p d = some (.error .panicked) := by
  unfold oneShotRun
  rw [oneShotFuel, h]
  show (if c ≤ r.length then oneShotFuel d.length q (r.drop c)
    else some (Except.error PErr.panicked)) = some (Except.error PErr.panicked)
  rw [if_neg hc]

theorem oneShotRun_congr (p q : PakParser) (d d' : List Nat)
    (hpq : p.parse d = q.parse d') (hlen : d'.length ≤ d.length) :
    oneShotRun p d = oneShotRun q d' := by
  unfold oneShotRun
  rw [oneShotFuel, oneShotFuel, hpq]
  cases hq : q.parse d' with
  | error e => cases e <;> rfl
  | ok v =>
    obtain ⟨m, rest⟩ := v
    cases m with
    | done f => rfl
    | cont q2 => rfl
    | loop q2 => rfl
    | skip a c q2 =>
      show (if c ≤ rest.length then oneShotFuel d.length q2 (rest.drop c)
        else some (Except.error PErr.panicked)) =
        (if c ≤ rest.length then oneShotFuel d'.length q2 (rest.drop c)
        else some (Except.error PErr.panicked))
      by_cases hc : c ≤ rest.length
      · rw [if_pos hc, if_pos hc]
        have hb := parse_skip_pos q d' a c q2 rest hq
        have hr := parse_rest_le q d' _ rest hq
        rw [oneShotFuel_run_eq q2 (rest.drop c) d.length
            (by rw [List.length_drop]; omega),
          oneShotFuel_run_eq q2 (rest.drop c) d'.length
            (by rw [List.length_drop]; omega)]
      · rw [if_neg hc, if_neg hc]

theorem feedFuel_of_oneShotRun :
    ∀ (fuel : Nat) (p : PakParser) (b s : List Nat) (f : PakFile)
      (rem : List Nat), b.length + 2 * s.length < fuel →
      oneShotRun p (b ++ s) = some (.ok (f, rem)) →
      feedFuel fuel p b s = some (.ok (f, rem)) := by
  intro fuel
  induction fuel with
  | zero =>
    intro p b s f rem hm h
    omega
  | succ fuel ih =>
    intro p b s f rem hm h
    rw [feedFuel]
    cases hp : p.parse b with
    | error e =>
      have he := (parse_ext b.length p b s (Nat.le_refl _)).2.2.2 e hp
      cases e with
      | cut =>
        rw [oneShotRun_cut p (b ++ s) he] at h
        simp at h
      | incomplete =>
        rw [oneShotRun_err p (b ++ s) _ he (by intro hx; cases hx)] at h
        simp at h
      | backtrack =>
        rw [oneShotRun_err p (b ++ s) _ he (by intro hx; cases hx)] at h
        simp at h
      | panicked =>
        rw [oneShotRun_err p (b ++ s) _ he (by intro hx; cases hx)] at h
        simp at h
    | ok v =>
      obtain ⟨m, rest⟩ := v
      cases m with
      | loop q => exact absurd rfl (parse_no_loop p b _ rest hp q)
      | done f0 =>
        have hd := (parse_ext b.length p b s (Nat.le_refl _)).1 f0 rest hp
        rw [oneShotRun_done p (b ++ s) f0 (rest ++ s) hd] at h
        exact h
      | cont q =>
        have hc := (parse_ext b.length p b s (Nat.le_refl _)).2.2.1 q rest hp
        cases s with
        | nil =>
          rw [List.append_nil] at h
          rw [oneShotRun_cont p b q rest hp] at h
          simp at h
        | cons b0 s2 =>
          have hr := parse_rest_le p b _ rest hp
          have hcongr := oneShotRun_congr p q (b ++ b0 :: s2) (rest ++ b0 :: s2)
            hc (by simp only [List.length_append, List.length_cons]; omega)
          rw [hcongr] at h
          rw [List.append_cons rest b0 s2] at h
          simp only [List.length_cons] at hm
          exact ih q (rest ++ [b0]) s2 f rem
            (by simp only [List.length_append, List.length_cons,
              List.length_nil]; omega) h
      | skip a c q =>
        have hsk := (parse_ext b.length p b s (Nat.le_refl _)).2.1 a c q rest hp
        have hb1 := parse_skip_pos p b a c q rest hp
        have hr := parse_rest_le p b _ rest hp
        show (if c ≤ rest.length then feedFuel fuel q (rest.drop c) s
          else if c ≤ rest.length + s.length then
            feedFuel fuel q [] (s.drop (c - rest.length))
          else some (Except.error PErr.panicked)) = some (Except.ok (f, rem))
        by_cases hc1 : c ≤ rest.length
        · rw [if_pos hc1]
          have hcfull : c ≤ (rest ++ s).length := by
            simp only [List.length_append]; omega
          have hrun := oneShotRun_skip p (b ++ s) a c q (rest ++ s) hsk hcfull
          rw [hrun, List.drop_append_of_le_length hc1] at h
          exact ih q (rest.drop c) s f rem (by rw [List.length_drop]; omega) h
        · rw [if_neg hc1]
          by_cases hc2 : c ≤ rest.length + s.length
          · rw [if_pos hc2]
            have hcfull : c ≤ (rest ++ s).length := by
              simp only [List.length_append]; omega
            have hrun := oneShotRun_skip p (b ++ s) a c q (rest ++ s) hsk hcfull
            have hdrop : (rest ++ s).drop c = s.drop (c - rest.length) := by
              rw [List.drop_append_eq_append_drop,
                List.drop_eq_nil_of_le (by omega), List.nil_append]
            rw [hrun, hdrop] at h
            exact ih q [] (s.drop (c - rest.length)) f rem
              (by simp only [List.length_nil, List.length_drop]; omega) h
          · rw [if_neg hc2]
            have hcfull : ¬ c ≤ (rest ++ s).length := by
              simp only [List.length_append]; omega
            have hrun := oneShotRun_skip_over p (b ++ s) a c q (rest ++ s)
              hsk hcfull
            rw [hrun] at h
            simp at h

/-! ## C2 -/

/-- C2 counterexample: in the archive `bytesA` the file `"/a"` is stored
with `compressed_flag = 0`, `compressed_len = 3` and
`decompressed_len = 5`; `open_file` returns the 3 raw payload bytes, not
`decompressed_len` bytes, refuting the universally quantified first half
of the claim. -/
theorem c2_open_file_len_counterexample :
    oneShot bytesA = some (.ok (pakA, []))
    ∧ PakVfs.new pakA = .ok cacheA
    ∧ open_file cacheA (slicePrime bytesA) (fun _ => .error ()) [0x2F, 97]
        = .ok [104, 105, 33]
    ∧ metadata cacheA [0x2F, 97] = .ok (.fileType, 5)
    ∧ ([104, 105, 33] : List Nat).length ≠ 5 :=
  ⟨rfl, rfl, rfl, rfl, by decide⟩

/-- C2 (amended): whenever the looked-up entry is a file with
`compressed_flag = 0`, `open_file` returns exactly the raw bytes the
source fetched for `[offset, offset + compressed_len)` — no decompression
and no length adjustment towards `decompressed_len`. -/
theorem c2_open_file_raw_when_uncompressed
    (cache : List (List Nat × FileEntry)) (prime : Nat → Nat → List Nat)
    (inflate : List Nat → Except Unit (List Nat)) (path : List Nat)
    (name : List Nat) (m : FileMeta)
    (hentry : entry_at cache path = .ok (.file name m))
    (hflag : m.compressed = 0) :
    open_file cache prime inflate path
      = .ok (prime m.offset (m.offset + m.compressed_len)) := by
  simp [open_file, hentry, hflag]

/-- C2 witness: the amended theorem applied to `"/a"` in `bytesA`. -/
theorem c2_open_file_raw_when_uncompressed_witness :
    entry_at cacheA [0x2F, 97] = .ok (.file [97] metaA)
    ∧ metaA.compressed = 0
    ∧ open_file cacheA (slicePrime bytesA) (fun _ => .error ()) [0x2F, 97]
        = .ok (slicePrime bytesA metaA.offset (metaA.offset + metaA.compressed_len)) :=
  ⟨rfl, rfl,
    c2_open_file_raw_when_uncompressed cacheA (slicePrime bytesA)
      (fun _ => .error ()) [0x2F, 97] [97] metaA rfl rfl⟩

/-! ## C7 -/

/-- C7 counterexample: the minimal archive's root folder has the empty
name on the wire and the parsed root entry keeps the empty name — it is
not the literal `"Root"` (`[0x52, 0x6F, 0x6F, 0x74]`). -/
theorem c7_root_name_not_renamed :
    oneShot bytesMin = some (.ok (pakMin, []))
    ∧ pakMin.file_chunk = some (Chunk.file (FileEntry.folder [] []))
    ∧ (FileEntry.folder [] []).name ≠ [0x52, 0x6F, 0x6F, 0x74] :=
  ⟨rfl, rfl, by decide⟩

/-- C7 (amended): the streaming parser's entry decoder stores the wire
name unchanged — whenever `parse_file_entry` succeeds, the entry's name is
exactly the `name_len`-byte slice following the two header bytes, for
folders and files alike (no `"Root"` substitution and no empty-name
error). -/
theorem c7_name_passthrough (i : List Nat) (e : FileEntry) (cn : Nat)
    (r : List Nat) (h : parse_file_entry i = .ok ((e, cn), r)) :
    e.name = (i.drop 2).take ((i.drop 1).headD 0) := by
  unfold parse_file_entry at h
  obtain ⟨kb, i1, hk, h⟩ := pbind_ok _ _ _ _ _ h
  unfold pmatch at h
  cases hkk : fileEntryKindOfByte kb with
  | error e2 => rw [hkk] at h; simp at h
  | ok kind =>
    rw [hkk] at h
    simp only at h
    obtain ⟨nl, i2, hnl, h⟩ := pbind_ok _ _ _ _ _ h
    obtain ⟨name, i3, hname, h⟩ := pbind_ok _ _ _ _ _ h
    by_cases hv : utf8Valid name
    · rw [if_neg (by simp [hv])] at h
      have hshape : e.name = name := by
        cases kind with
        | folderKind =>
          obtain ⟨cc, i4, hcc, h⟩ := pbind_ok _ _ _ _ _ h
          unfold ppure at h
          simp only [Except.ok.injEq, Prod.mk.injEq] at h
          obtain ⟨⟨he, _⟩, _⟩ := h
          rw [← he]
          rfl
        | fileKind =>
          obtain ⟨offset, j1, _, h⟩ := pbind_ok _ _ _ _ _ h
          obtain ⟨clen, j2, _, h⟩ := pbind_ok _ _ _ _ _ h
          obtain ⟨dlen, j3, _, h⟩ := pbind_ok _ _ _ _ _ h
          obtain ⟨unk, j4, _, h⟩ := pbind_ok _ _ _ _ _ h
          obtain ⟨unk2, j5, _, h⟩ := pbind_ok _ _ _ _ _ h
          obtain ⟨comp, j6, _, h⟩ := pbind_ok _ _ _ _ _ h
          obtain ⟨lvl, j7, _, h⟩ := pbind_ok _ _ _ _ _ h
          obtain ⟨ts, j8, _, h⟩ := pbind_ok _ _ _ _ _ h
          split at h
          · simp at h
          · split at h
            · simp at h
            · split at h
              · simp at h
              · split at h
                · simp at h
                · simp only [Except.ok.injEq, Prod.mk.injEq] at h
                  obtain ⟨⟨he, _⟩, _⟩ := h
                  rw [← he]
                  rfl
      -- now compute the positions of the name bytes in the raw input
      have hku : i = kb :: i1 := by
        unfold pu8 at hk
        cases i with
        | nil => simp at hk
        | cons x xs =>
          simp only [Except.ok.injEq, Prod.mk.injEq] at hk
          rw [hk.1, hk.2]
      have hnu : i1 = nl :: i2 := by
        unfold pu8 at hnl
        cases i1 with
        | nil => simp at hnl
        | cons x xs =>
          simp only [Except.ok.injEq, Prod.mk.injEq] at hnl
          rw [hnl.1, hnl.2]
      have hnamev : name = i2.take nl := by
        unfold ptake at hname
        by_cases hle : nl ≤ i2.length
        · rw [if_pos hle] at hname
          simp only [Except.ok.injEq, Prod.mk.injEq] at hname
          exact hname.1.symm
        · rw [if_neg hle] at hname
          simp at hname
      rw [hshape, hnamev, hku, hnu]
      simp
    · rw [if_pos (by simp [hv])] at h
      simp at h

/-- C7 witness: the amended theorem applied to a root folder entry with
empty name — the parsed name is the empty byte string. -/
theorem c7_name_passthrough_witness :
    parse_file_entry [0, 0, 0, 0, 0, 0]
      = .ok ((FileEntry.folder [] [], 0), [])
    ∧ (FileEntry.folder [] []).name
        = (([0, 0, 0, 0, 0, 0] : List Nat).drop 2).take
            ((([0, 0, 0, 0, 0, 0] : List Nat).drop 1).headD 0) :=
  ⟨rfl, c7_name_passthrough [0, 0, 0, 0, 0, 0] (FileEntry.folder [] []) 0 [] rfl⟩

/-! ## C3 -/

/-- C3 counterexample: not every mutating operation returns
`NotSupported` — `create_dir` (like `create_file`, `append_file`,
`remove_file`, `remove_dir`) is `todo!()`, i.e. a panic. -/
theorem c3_not_all_not_supported :
    ¬ (∀ op : MutatingOp, mutatingOpResult op = .notSupported) := fun h =>
  (by decide : mutatingOpResult .create_dir ≠ .notSupported) (h .create_dir)

/-- C3 (amended): the time setters and the copy/move operations return
`NotSupported`; the five creation/removal operations panic via `todo!()`. -/
theorem c3_mutating_ops_split :
    (∀ op : MutatingOp,
      mutatingOpResult op = .notSupported ↔
        (op = .set_creation_time ∨ op = .set_modification_time
          ∨ op = .set_access_time ∨ op = .copy_file ∨ op = .move_file
          ∨ op = .move_dir))
    ∧ (∀ op : MutatingOp,
      mutatingOpResult op = .todoPanic ↔
        (op = .create_dir ∨ op = .create_file ∨ op = .append_file
          ∨ op = .remove_file ∨ op = .remove_dir)) := by
  constructor <;> intro op <;> cases op <;> simp [mutatingOpResult]

/-! ## C4 -/

/-- C4: on an archive whose entry name is the invalid-UTF-8 byte `0xFF`,
the one-shot parse ends in a panic (`String::from_utf8(…).expect`), not in
the explicit `PakError` result (`.cut`) that the specification requires
for format errors. -/
theorem c4_invalid_utf8_name_panics :
    oneShot bytesBadUtf8 = some (.error .panicked)
    ∧ PErr.panicked ≠ PErr.cut :=
  ⟨rfl, by decide⟩

/-! ## C5 -/

/-- C5 counterexample: the 20 MiB ceiling is not a hard upper bound —
inserting a fresh entry of `MEM_LIMIT + 5` bytes into an empty cache ends
with the aggregate above the ceiling, and a cache sitting exactly at the
ceiling takes the next insertion without evicting anything. -/
theorem c5_ceiling_exceeded_counterexample :
    MEM_LIMIT < memUsage (prime_file_async [] (0, MEM_LIMIT + 5))
    ∧ memUsage (prime_file_async [((0, MEM_LIMIT), MEM_LIMIT)] (30000000, 30000005))
        = MEM_LIMIT + 5 := by
  constructor <;> decide

/-! ## C6 -/

theorem find?_of_unique {α : Type} (p : α → Bool) :
    ∀ (l : List α) (x : α), x ∈ l → p x = true →
      (l.filter p).length = 1 → l.find? p = some x := by
  intro l
  induction l with
  | nil => intro x hx _ _; cases hx
  | cons a t ih =>
    intro x hx hpx hlen
    by_cases hpa : p a = true
    · rw [List.find?_cons_of_pos _ hpa]
      rcases List.mem_cons.mp hx with hxa | hxt
      · rw [hxa]
      · exfalso
        have hxf : x ∈ t.filter p := List.mem_filter.mpr ⟨hxt, hpx⟩
        rw [List.filter_cons_of_pos hpa] at hlen
        simp only [List.length_cons, Nat.add_right_cancel_iff] at hlen
        have : t.filter p = [] := List.length_eq_zero.mp (by omega)
        rw [this] at hxf
        cases hxf
    · rw [List.find?_cons_of_neg _ hpa]
      refine ih x ?_ hpx ?_
      · rcases List.mem_cons.mp hx with hxa | hxt
        · exfalso; rw [hxa] at hpx; exact hpa hpx
        · exact hxt
      · rw [List.filter_cons_of_neg hpa] at hlen
        exact hlen

theorem cacheLoop_keys (fuel : Nat) :
    ∀ q : List (List Nat × FileEntry),
      (∀ kv ∈ q, kv.1 = [] ∨ kv.1.headD 0 = 0x2F) →
      ∀ kv ∈ cacheLoop fuel q, kv.1.headD 0 = 0x2F := by
  induction fuel with
  | zero =>
    intro q hq kv hkv
    match q with
    | [] => cases hkv
    | _ :: _ => cases hkv
  | succ fuel ih =>
    intro q hq kv hkv
    match q with
    | [] => cases hkv
    | (path, current) :: rest =>
      have hpath : path = [] ∨ path.headD 0 = 0x2F :=
        hq (path, current) (List.mem_cons_self _ _)
      have hthis : (if path = [0x2F] then path ++ current.name
          else path ++ [0x2F] ++ current.name).headD 0 = 0x2F := by
        by_cases hp : path = [0x2F]
        · rw [if_pos hp, hp]
          rfl
        · rw [if_neg hp]
          rcases hpath with hnil | hhead
          · rw [hnil]
            rfl
          · cases path with
            | nil => simp at hhead
            | cons b bs =>
              simp only [List.headD_cons] at hhead
              simp [hhead]
      simp only [cacheLoop] at hkv
      rcases List.mem_cons.mp hkv with hkv1 | hkv2
      · rw [hkv1]
        exact hthis
      · refine ih _ ?_ kv hkv2
        intro kv2 hkv2m
        cases hcur : current with
        | folder nm children =>
          rw [hcur] at hkv2m
          simp only at hkv2m
          rcases List.mem_append.mp hkv2m with hin | hin
          · have := List.mem_reverse.mp hin
            obtain ⟨c, _, hc⟩ := List.mem_map.mp this
            right
            rw [← hc]
            simpa [hcur] using hthis
          · exact hq kv2 (List.mem_cons_of_mem _ hin)
        | file nm mt =>
          rw [hcur] at hkv2m
          simp only at hkv2m
          exact hq kv2 (List.mem_cons_of_mem _ hkv2m)

/-- C6 counterexample: in the adapter built from `bytesA`'s archive, the
file is found at `"/a"` but not at `"a"` — a lookup without the leading
`/` fails with `FileNotFound`, refuting the "with and without the leading
'/'" part of the claim. -/
theorem c6_no_leading_slash_fails :
    PakVfs.new pakA = .ok cacheA
    ∧ entry_at cacheA [0x2F, 97] = .ok (.file [97] metaA)
    ∧ entry_at cacheA [97] = .error .fileNotFound :=
  ⟨rfl, rfl, rfl⟩

/-- C6 (amended): the adapter pre-indexes every entry under its absolute
path with the leading `/` only: (a) the empty path and `"/"` resolve to
the same cache entry; (b) a non-empty path that does not start with `/`
is never a key, so lookup fails with `FileNotFound`; (c) every `(path,
entry)` pair recorded by the construction whose path is unique in the
cache is found by `entry_at` at exactly that path. -/
theorem c6_leading_slash_lookup :
    (∀ cache : List (List Nat × FileEntry),
      entry_at cache [] = entry_at cache [0x2F])
    ∧ (∀ (fs : FileEntry) (p : List Nat), p ≠ [] → p.headD 0 ≠ 0x2F →
        entry_at (buildCache fs) p = .error .fileNotFound)
    ∧ (∀ (fs : FileEntry) (p : List Nat) (e : FileEntry),
        (p, e) ∈ buildCache fs →
        ((buildCache fs).filter (fun kv => kv.1 = p)).length = 1 →
        entry_at (buildCache fs) p = .ok e) := by
  have hsingle : ∀ fs : FileEntry,
      ∀ kv ∈ ([(([] : List Nat), fs)] : List (List Nat × FileEntry)),
        kv.1 = [] ∨ kv.1.headD 0 = 0x2F := by
    intro fs kv hkv
    rw [List.mem_singleton] at hkv
    subst hkv
    left
    rfl
  refine ⟨fun cache => rfl, fun fs p hne hhead => ?_, fun fs p e hmem huniq => ?_⟩
  · have hkeys := cacheLoop_keys (entrySize fs) [([], fs)] (hsingle fs)
    have hnone : cacheGet (buildCache fs) p = none := by
      unfold cacheGet
      rw [List.find?_eq_none.mpr]
      · rfl
      · intro kv hkv hq
        have h1 := hkeys kv (List.mem_reverse.mp hkv)
        have h2 : kv.1 = p := by simpa using hq
        rw [h2] at h1
        exact hhead h1
    unfold entry_at
    rw [if_neg hne]
    simp [hnone]
  · have hkeys := cacheLoop_keys (entrySize fs) [([], fs)] (hsingle fs)
    have hp : p.headD 0 = 0x2F := hkeys (p, e) hmem
    have hne : p ≠ [] := by
      intro hnil
      rw [hnil] at hp
      simp at hp
    have hget : cacheGet (buildCache fs) p = some e := by
      unfold cacheGet
      rw [find?_of_unique _ _ (p, e) (List.mem_reverse.mpr hmem) (by simp)
        (by rw [List.filter_reverse, List.length_reverse]; exact huniq)]
      rfl
    unfold entry_at
    rw [if_neg hne]
    simp [hget]

/-- C6 witness: the amended theorem applied to `"/a"` in `bytesA`'s
adapter, together with the empty-path/`"/"` agreement. -/
theorem c6_leading_slash_lookup_witness :
    (([0x2F, 97], (FileEntry.file [97] metaA : FileEntry)) ∈ buildCache rootA)
    ∧ ((buildCache rootA).filter
        (fun kv => kv.1 = [0x2F, 97])).length = 1
    ∧ entry_at (buildCache rootA) [0x2F, 97] = .ok (.file [97] metaA)
    ∧ entry_at (buildCache rootA) [] = entry_at (buildCache rootA) [0x2F] :=
  ⟨List.Mem.tail _ (List.Mem.head _), rfl,
    c6_leading_slash_lookup.2.2 rootA [0x2F, 97] (.file [97] metaA)
      (List.Mem.tail _ (List.Mem.head _)) rfl,
    c6_leading_slash_lookup.1 (buildCache rootA)⟩

/-! ## C5 (amended theorem) -/

theorem memUsage_append (a b : List CacheEntry) :
    memUsage (a ++ b) = memUsage a + memUsage b := by
  simp [memUsage]

theorem memUsage_single (r : Nat × Nat) (n : Nat) :
    memUsage [(r, n)] = n := by
  simp [memUsage]

theorem perm_cons_filter_ne_key :
    ∀ (buffers : List CacheEntry) (k : Nat × Nat) (v : Nat),
      (k, v) ∈ buffers → (buffers.map Prod.fst).Nodup →
      buffers.Perm ((k, v) :: buffers.filter (fun e => e.1 ≠ k)) := by
  intro buffers
  induction buffers with
  | nil => intro k v hmem; cases hmem
  | cons a rest ih =>
    intro k v hmem hnodup
    obtain ⟨k2, v2⟩ := a
    simp only [List.map_cons, List.nodup_cons] at hnodup
    obtain ⟨hk2, hrest⟩ := hnodup
    by_cases heq : (k2, v2) = (k, v)
    · have hq1 : k2 = k := congrArg Prod.fst heq
      have hq2 : v2 = v := congrArg Prod.snd heq
      subst hq1
      subst hq2
      rw [List.filter_cons_of_neg (by simp)]
      have hfe : rest.filter (fun e => e.1 ≠ k2) = rest := by
        apply List.filter_eq_self.mpr
        intro e he
        simp only [ne_eq, decide_eq_true_eq]
        intro hek
        exact hk2 (hek ▸ List.mem_map_of_mem Prod.fst he)
      rw [hfe]
    · have hmem2 : (k, v) ∈ rest := by
        rcases List.mem_cons.mp hmem with h | h
        · exact absurd h.symm heq
        · exact h
      have hk2ne : k2 ≠ k := by
        intro hkk
        subst hkk
        exact hk2 (List.mem_map_of_mem Prod.fst hmem2)
      rw [List.filter_cons_of_pos (by simp [hk2ne])]
      exact ((ih k v hmem2 hrest).cons (k2, v2)).trans
        (List.Perm.swap (k, v) (k2, v2) _)

theorem evictLoop_usage :
    ∀ (sorted buffers : List CacheEntry) (usage : Nat),
      sorted.Perm buffers → (buffers.map Prod.fst).Nodup →
      usage = memUsage buffers →
      memUsage (evictLoop sorted buffers usage) < MEM_LIMIT := by
  intro sorted
  induction sorted with
  | nil =>
    intro buffers usage hperm _ husage
    have hnil : buffers = [] := hperm.nil_eq.symm
    subst hnil
    simp [evictLoop, memUsage, MEM_LIMIT]
  | cons kv restSorted ih =>
    intro buffers usage hperm hnodup husage
    obtain ⟨k, v⟩ := kv
    have hmem : (k, v) ∈ buffers := hperm.mem_iff.mp (List.mem_cons_self _ _)
    have hperm3 := perm_cons_filter_ne_key buffers k v hmem hnodup
    have husage2 : memUsage buffers
        = v + memUsage (buffers.filter (fun e => e.1 ≠ k)) := by
      have h2 : (List.map Prod.snd buffers).sum
          = (List.map Prod.snd
              ((k, v) :: buffers.filter (fun e => e.1 ≠ k))).sum :=
        (hperm3.map Prod.snd).sum_eq
      unfold memUsage
      rw [h2, List.map_cons, List.sum_cons]
    rw [evictLoop]
    by_cases hstop : usage - v < MEM_LIMIT
    · rw [if_pos hstop]
      omega
    · rw [if_neg hstop]
      refine ih (buffers.filter (fun e => e.1 ≠ k)) (usage - v) ?_ ?_ ?_
      · exact (hperm.trans hperm3).cons_inv
      · exact List.Nodup.sublist ((List.filter_sublist _).map Prod.fst) hnodup
      · omega

/-- C5 (amended): on inserting a fresh range, eviction fires only when
the pre-insertion aggregate strictly exceeds the 20 MiB ceiling and then
removes entries smallest-capacity-first until the surviving pre-existing
aggregate is strictly below the ceiling; the new entry is then inserted
unconditionally.  Hence the post-insertion aggregate is bounded by
`MEM_LIMIT + new entry's capacity` (and can exceed `MEM_LIMIT` itself, as
the counterexample shows). -/
theorem c5_aggregate_bound (buffers : List CacheEntry) (r : Nat × Nat)
    (hfresh : buffers.find? (fun e => e.1 = r) = none)
    (hnodup : (buffers.map Prod.fst).Nodup) :
    memUsage (prime_file_async buffers r) ≤ MEM_LIMIT + (r.2 - r.1) := by
  unfold prime_file_async
  rw [hfresh]
  simp only
  by_cases hu : memUsage buffers > MEM_LIMIT
  · rw [if_pos hu]
    have hlt := evictLoop_usage (buffers.mergeSort (fun a b => a.2 ≤ b.2))
      buffers (memUsage buffers) (List.mergeSort_perm buffers _) hnodup rfl
    rw [memUsage_append, memUsage_single]
    omega
  · rw [if_neg hu]
    rw [memUsage_append, memUsage_single]
    omega

/-- C5 witness: the amended bound applied to an insertion of 5 bytes into
the empty cache. -/
theorem c5_aggregate_bound_witness :
    (([] : List CacheEntry).find? (fun e => e.1 = ((0, 5) : Nat × Nat)) = none)
    ∧ (([] : List CacheEntry).map Prod.fst).Nodup
    ∧ memUsage (prime_file_async [] (0, 5)) ≤ MEM_LIMIT + ((0, 5) : Nat × Nat).2 - ((0, 5) : Nat × Nat).1 :=
  ⟨rfl, List.nodup_nil, by
    have := c5_aggregate_bound [] (0, 5) rfl List.nodup_nil
    simpa using this⟩

/-! ## C9 -/

/-- C9: the synchronous `Prime::prime_file` of the caching wrapper returns
a zero-capacity buffer with no readable bytes, for every requested range
(the implementation reads neither the range, the handle nor the cache);
consequently a synchronous `open_file` routed through this wrapper sees
the same bytes as a source that always returns the empty byte string. -/
theorem c9_sync_prime_returns_empty :
    ∀ r : Nat × Nat,
      CachingWrapper.prime_file_sync r = .ok (OvalBuffer.with_capacity 0)
      ∧ (sync_wrapper_prime r.1 r.2).length = 0
      ∧ ∀ (cache : List (List Nat × FileEntry))
          (inflate : List Nat → Except Unit (List Nat)) (path : List Nat),
          open_file cache sync_wrapper_prime inflate path
            = open_file cache (fun _ _ => []) inflate path :=
  fun _ => ⟨rfl, rfl, fun _ _ _ => rfl⟩

/-! ## C10 -/

/-- C10: `PakVfs::new` panics (`unwrap` on `file_chunk()`) on every
archive without a `File` chunk; on an archive whose `File` chunk holds the
root `fs`, construction succeeds and the entry cache records exactly one
insertion per node of the tree. -/
theorem c10_vfs_new_panic_and_cache_count :
    (∀ pak : PakFile, pak.file_chunk = none → PakVfs.new pak = .error .panicked)
    ∧ (∀ (pak : PakFile) (fs : FileEntry),
        pak.file_chunk = some (Chunk.file fs) →
        PakVfs.new pak = .ok (buildCache fs)
        ∧ (buildCache fs).length = entrySize fs) := by
  constructor
  · intro pak h
    simp [PakVfs.new, h]
  · intro pak fs h
    constructor
    · simp [PakVfs.new, h]
    · have := cacheLoop_length (entrySize fs) [([], fs)] (by simp)
      simpa [buildCache] using this

/-- C10 witness: the empty chunk list panics; `bytesA`'s archive builds a
cache with one insertion per node (2 nodes). -/
theorem c10_vfs_new_witness :
    (PakFile.mk []).file_chunk = none
    ∧ PakVfs.new ⟨[]⟩ = .error .panicked
    ∧ pakA.file_chunk = some (Chunk.file rootA)
    ∧ PakVfs.new pakA = .ok (buildCache rootA)
    ∧ (buildCache rootA).length = entrySize rootA :=
  ⟨rfl, c10_vfs_new_panic_and_cache_count.1 ⟨[]⟩ rfl, rfl,
    (c10_vfs_new_panic_and_cache_count.2 pakA rootA rfl).1,
    (c10_vfs_new_panic_and_cache_count.2 pakA rootA rfl).2⟩

/-! ## C8 -/

/-- C8 counterexample: on `bytesMinPad` — a well-formed minimal archive
followed by one trailing byte `0x41` — the one-shot parse succeeds and the
byte-at-a-time streaming run agrees with it, but both leave the final byte
unconsumed: 26 of the 27 file bytes are parsed, refuting the claim's
clause that `bytes_parsed` then equals the file length. -/
theorem c8_trailing_bytes_counterexample :
    oneShot bytesMinPad = some (.ok (pakMin, [0x41])) ∧
    feed bytesMinPad = some (.ok (pakMin, [0x41])) ∧
    bytesMinPad.length = 27 ∧
    bytesMinPad.length - [0x41].length ≠ bytesMinPad.length :=
  ⟨rfl, rfl, rfl, by decide⟩

/-- C8 (amended): whenever the one-shot in-memory parse of `PakFile::parse`
succeeds on a byte sequence, driving the streaming parser by supplying the
bytes one at a time — retrying on `Continue` with the cursor logically
reset, honouring `Skip` by discarding `count` bytes across buffer and
source — reaches `Done` with a structurally equal `PakFile` and the same
unconsumed remainder.  (The original claim's further clause that
`bytes_parsed` equals the file length fails on trailing bytes, which
neither driver consumes.) -/
theorem c8_stream_matches_oneshot (data : List Nat) (f : PakFile)
    (rem : List Nat) (h : oneShot data = some (.ok (f, rem))) :
    feed data = some (.ok (f, rem)) := by
  unfold feed
  exact feedFuel_of_oneShotRun (2 * data.length + 1) PakParser.new [] data
    f rem (by simp only [List.length_nil]; omega) h

/-- C8 witness: on the minimal archive the one-shot parse succeeds with no
remainder, and the streaming driver produces the same archive. -/
theorem c8_stream_matches_oneshot_witness :
    oneShot bytesMin = some (.ok (pakMin, [])) ∧
    feed bytesMin = some (.ok (pakMin, [])) :=
  ⟨rfl, c8_stream_matches_oneshot bytesMin pakMin [] rfl⟩

end EnfusionPak
